import Mathlib

/-!
Verification of the `hopsworks-aliases` generator.

The repository holds two successive revisions of one build-time script:

* `src/hopsworks_aliases/__init__.py` (the earlier revision, embedded in
  namespace `InitScript` below), and
* `src/hopsworks_aliases/plugin.py` (the later revision, embedded in
  namespace `Plugin` below).

The script scans Python sources for `@public` decorators and generates
`__init__.py` files that alias the decorated symbols into target modules.

Embedding conventions:

* Python strings are Lean `String`s; Python compares strings
  lexicographically by code point, which we model with an explicit,
  kernel-computable comparison on character lists.
* Python `pathlib.Path` values are modelled as lists of path components
  (`List String`), relative paths by construction.  `pathlib`'s
  normalisation of empty components is not modelled.
* Python `list.sort` / `sorted` are stable; all stable sorts agree, so we
  model them with a stable insertion sort.
* The griffe loader is third-party code; it is modelled as handing the
  generator the list of loaded modules (`List Module`), each with its
  canonical path and its members with their decorators.
* A string built by repeated `+=` of newline-terminated chunks is modelled
  as the list of chunks (`List Line`); the file content is the
  concatenation of their renderings.
* Keyword arguments of the `@public` decorator are embedded twice.  The
  typed layer (`applyKw`, `_parse_public_decorator`) models only the three
  keyword names the generator reads back, at the types at which it consumes
  them; it is the restriction of the source to decorators that use the
  keywords as documented.  The full layer (`applyKwFull`,
  `parsePublicFull`) models the source's kwargs dictionary exactly: any
  keyword with a string or elements-bearing value is stored, a `paths`
  keyword overrides the positional paths through the
  `{"paths": paths, **kwargs}` merge, and a string-valued `deprecated_by`
  is stored and is iterated as its characters.  The C1 development uses
  the full layer.
-/

namespace HopsworksAliases

/-! ### String utilities -/

/-- The single-quote character, written by code point. -/
def charQuote : Char := Char.ofNat 39

def isQuoteChar (c : Char) : Bool := c = charQuote || c = '"'

/-- Python `s.strip(quote-chars)`: remove leading and trailing quote characters. -/
def stripQuotes (s : String) : String :=
  String.mk (((s.toList.dropWhile isQuoteChar).reverse.dropWhile isQuoteChar).reverse)

/-- Lexicographic comparison of character lists by code point. -/
def chListLe : List Char → List Char → Bool
  | [], _ => true
  | _ :: _, [] => false
  | a :: as, b :: bs =>
    if a.toNat < b.toNat then true
    else if b.toNat < a.toNat then false
    else chListLe as bs

/-- Python string comparison, as used by `sorted` and `list.sort`. -/
def strLe (s t : String) : Bool := chListLe s.toList t.toList

/-- Insert an element into a sorted list, before the first element it is `le` to. -/
def insertSorted (le : α → α → Bool) (a : α) : List α → List α
  | [] => [a]
  | b :: l => if le a b then a :: b :: l else b :: insertSorted le a l

/-- Stable insertion sort.  Python's `list.sort` and `sorted` are stable, and
all stable sorts agree, so this models them exactly. -/
def isort (le : α → α → Bool) : List α → List α
  | [] => []
  | a :: l => insertSorted le a (isort le l)

/-- Python `sorted` on a list of strings. -/
def sortStrings (l : List String) : List String := isort strLe l

/-- Python `s.startswith(pre)`. -/
def strStartsWith (s pre : String) : Bool := pre.toList.isPrefixOf s.toList

/-- Python `s.endswith(suf)`. -/
def strEndsWith (s suf : String) : Bool := suf.toList.isSuffixOf s.toList

/-- Split a character list on a separator character; mirrors Python `str.split`. -/
def splitOnChar (c : Char) : List Char → List (List Char)
  | [] => [[]]
  | a :: as =>
    let r := splitOnChar c as
    if a = c then [] :: r
    else
      match r with
      | [] => [[a]]
      | x :: xs => (a :: x) :: xs

/-- The path components of `target.replace(".", "/")`: split the target module
name on dots. -/
def splitDots (s : String) : List String := (splitOnChar '.' s.toList).map String.mk

/-- Python `str(Path)` on a path given by its components; the empty relative
path prints as a dot. -/
def pathStr : List String → String
  | [] => "."
  | ps => String.intercalate "/" ps

/-- Python set construction from a list of strings: keep one copy of each value. -/
def setOfList : List String → List String
  | [] => []
  | a :: l => if l.contains a then setOfList l else a :: setOfList l

/-- Association-list lookup, modelling Python `dict` access with string keys. -/
def lookupA : List (String × String) → String → Option String
  | [], _ => none
  | (k, v) :: l, k' => if k = k' then some v else lookupA l k'

/-! ### Data model: modules, members and decorators, as seen through griffe -/

/-- An element of a set or list literal appearing as a decorator argument. -/
inductive GElem where
  | str (s : String)
  | other
deriving DecidableEq

/-- The value of a decorator keyword argument as griffe presents it:
a string literal, an expression with an `elements` field (a set or list
literal), or anything else. -/
inductive GVal where
  | str (s : String)
  | elems (l : List GElem)
  | other
deriving DecidableEq

/-- An argument of the decorator call expression: a string-literal positional
argument, some other positional expression, or a keyword argument. -/
inductive GArg where
  | pos (s : String)
  | posOther
  | kw (name : String) (value : GVal)
deriving DecidableEq

/-- The expression a decorator consists of: a call with arguments, or anything
else. -/
inductive DecExpr where
  | call (arguments : List GArg)
  | other
deriving DecidableEq

structure Decorator where
  callable_path : Option String
  value : DecExpr
deriving DecidableEq

/-- A module member; `decorators = none` models absence of the attribute. -/
structure Member where
  is_alias : Bool
  decorators : Option (List Decorator)
deriving DecidableEq

/-- A loaded module: its canonical path and its members in definition order. -/
structure Module where
  canonical_path : String
  members : List (String × Member)
deriving DecidableEq

/-- The metadata extracted from one `@public` decorator. -/
structure Metadata where
  paths : List String
  as_alias : Option String
  deprecated_by : Option (List String)
  available_until : Option String
deriving DecidableEq

/-- One collected alias: the earlier revision's `(from_module, item_name,
metadata)` tuple and the plugin revision's alias record carry exactly these
fields. -/
structure AliasRec where
  paths : List String
  from_module : String
  object_name : String
  as_alias : Option String
  deprecated_by : Option (List String)
  available_until : Option String
deriving DecidableEq

def mdToRec (fm nm : String) (md : Metadata) : AliasRec :=
  { paths := md.paths, from_module := fm, object_name := nm,
    as_alias := md.as_alias, deprecated_by := md.deprecated_by,
    available_until := md.available_until }

/-! ### Decorator recognition and parsing

`_parse_public_decorator` is defined in `src/hopsworks_aliases/__init__.py`
(lines 116-162); the `@public` recognition test is from
`_scan_module_for_public_decorators` (line 103). -/

/-- The test `decorator.callable_path and
decorator.callable_path.endswith(".public")`. -/
def isPublicDec (d : Decorator) : Bool :=
  match d.callable_path with
  | some p => p != "" && strEndsWith p ".public"
  | none => false

/-- Interpret the elements of a set literal: keep the string literals,
stripped of quotes, with set semantics. -/
def setElems (l : List GElem) : List String :=
  setOfList (l.filterMap fun e => match e with | .str s => some (stripQuotes s) | .other => none)

/-- Apply one keyword argument to the metadata record being built, at the type
the generator consumes the keyword at (see the embedding conventions).  This is
the typed restriction: the source's kwargs loop (`__init__.py` lines 143-157)
stores any keyword name and both value shapes; keywords outside the three
known names (in particular `paths`) and mis-typed values are modelled by
`applyKwFull` and `parsePublicFull` below. -/
def applyKw (md : Metadata) (k : String) (v : GVal) : Metadata :=
  if k = "as_alias" then
    match v with
    | .str s => { md with as_alias := some (stripQuotes s) }
    | _ => md
  else if k = "deprecated_by" then
    match v with
    | .elems l => { md with deprecated_by := some (setElems l) }
    | _ => md
  else if k = "available_until" then
    match v with
    | .str s => { md with available_until := some (stripQuotes s) }
    | _ => md
  else md

/-- `_parse_public_decorator`: `none` unless the decorator value is a call;
paths are the stripped string-literal positional arguments; keyword arguments
fill the three known fields.  The `{"paths": paths, **kwargs}` merge of
`__init__.py` lines 159-162, by which a `paths` keyword replaces the
positional path list, is not reflected here; `parsePublicFull` below models
it. -/
def _parse_public_decorator (d : Decorator) : Option Metadata :=
  match d.value with
  | .call args =>
    let paths := args.filterMap fun a => match a with
      | .pos s => some (stripQuotes s)
      | _ => none
    some (args.foldl
      (fun md a => match a with
        | .kw k v => applyKw md k v
        | _ => md)
      { paths := paths, as_alias := none, deprecated_by := none, available_until := none })
  | .other => none

/-! ### Collecting aliases

Both revisions build a `defaultdict` mapping each target module to the list
of aliases collected for it, in emission order.  We model the emission order
as a flat list of `(target, alias)` pairs and the dictionary as an
association list grouped from it. -/

/-- The aliases collected at one target, in emission order. -/
def entriesAt (flat : List (String × AliasRec)) (t : String) : List AliasRec :=
  flat.filterMap (fun p => if p.1 = t then some p.2 else none)

/-- `aliases_by_module[target].append(e)` on an association list whose keys
appear in first-insertion order. -/
def addAlias (acc : List (String × List AliasRec)) (t : String) (e : AliasRec) :
    List (String × List AliasRec) :=
  match acc with
  | [] => [(t, [e])]
  | (k, l) :: rest => if k = t then (k, l ++ [e]) :: rest else (k, l) :: addAlias rest t e

/-- Build the `aliases_by_module` dictionary from the flat emission order. -/
def groupAliases (flat : List (String × AliasRec)) : List (String × List AliasRec) :=
  flat.foldl (fun acc p => addAlias acc p.1 p.2) []

namespace InitScript

/-- Aliases contributed by one decorator of member `nm` of module `fm`, one
`(target, entry)` pair per path listed in the decorator; mirrors the body of
the decorator loop of `_scan_module_for_public_decorators`
(`__init__.py` lines 101-113). -/
def decoratorAliases (fm nm : String) (d : Decorator) : List (String × AliasRec) :=
  if isPublicDec d then
    match _parse_public_decorator d with
    | some md => if md.paths.isEmpty then [] else md.paths.map (fun t => (t, mdToRec fm nm md))
    | none => []
  else []

/-- `_scan_module_for_public_decorators` (`__init__.py` lines 93-113), as the
flat list of `(target, entry)` pairs it appends. -/
def _scan_module_for_public_decorators (m : Module) : List (String × AliasRec) :=
  m.members.flatMap (fun p =>
    if p.2.is_alias then []
    else
      match p.2.decorators with
      | none => []
      | some ds => ds.flatMap (decoratorAliases m.canonical_path p.1))

/-- The flat emission order of `collect_aliases` (`__init__.py` lines 75-78)
over the loaded modules. -/
def scanFlat (tree : List Module) : List (String × AliasRec) :=
  tree.flatMap _scan_module_for_public_decorators

/-- `collect_aliases` (`__init__.py` lines 48-80): the per-target dictionary. -/
def collect_aliases (tree : List Module) : List (String × List AliasRec) :=
  groupAliases (scanFlat tree)

end InitScript

namespace Plugin

/-- Modelled from the spec: `extension.py`, defining the griffe extension
`HopsworksAliases`, is not under `src/`.  Per the spec, the `@public`
decorator is the "source-level marker consumed by the generator to identify
which symbols should be aliased and where"; the extension attaches to each
decorated member the records the plugin reads back as
`member.hopsworks_aliases["aliases"]`, one record per `@public` decorator,
with the decorator's paths and keyword metadata and the member's module and
name.  We model it with the same recognition and parsing as the earlier
revision's scanner. -/
def hopsworksAliasesOf (modPath nm : String) (mem : Member) : List AliasRec :=
  if mem.is_alias then []
  else
    match mem.decorators with
    | none => []
    | some ds =>
      ds.filterMap (fun d =>
        if isPublicDec d then
          match _parse_public_decorator d with
          | some md => if md.paths.isEmpty then none else some (mdToRec modPath nm md)
          | none => none
        else none)

/-- The flat emission order of `collect_aliases` (`plugin.py` lines 83-90):
each member's alias records, one `(target, alias)` pair per listed path. -/
def scanFlat (tree : List Module) : List (String × AliasRec) :=
  tree.flatMap (fun m =>
    m.members.flatMap (fun p =>
      (hopsworksAliasesOf m.canonical_path p.1 p.2).flatMap
        (fun a => a.paths.map (fun t => (t, a)))))

/-- `collect_aliases` (`plugin.py` lines 58-92): the per-target dictionary. -/
def collect_aliases (tree : List Module) : List (String × List AliasRec) :=
  groupAliases (scanFlat tree)

end Plugin

/-! ### Generated file content

Each generated `__init__.py` is built by appending newline-terminated chunks
to a string; we model the chunk list and render it to the content string. -/

/-- One appended chunk of a generated file. -/
inductive Line where
  | text (s : String)
  | importLine (m : String)
  | assign (name : String) (from_module : String) (object_name : String)
      (dep : Option (List String × Option String))
deriving DecidableEq

/-- Comma-separated double-quoted strings, as in `", ".join(f'"{s}"' ...)`. -/
def quoteJoin (l : List String) : String :=
  String.intercalate ", " (l.map (fun s => "\"" ++ s ++ "\""))

/-- The `available_until` keyword fragment of the deprecation wrapper. -/
def availStr : Option String → String
  | some u => ", available_until=\"" ++ u ++ "\""
  | none => ""

/-- The right-hand side of a generated assignment: the plain
`from_module.object_name` reference, or that reference wrapped in a
`deprecated(...)` call from the given helper module. -/
def refStr (helper from_module object_name : String) :
    Option (List String × Option String) → String
  | none => from_module ++ "." ++ object_name
  | some (ds, au) =>
    helper ++ ".deprecated(" ++ quoteJoin ds ++ availStr au ++ ")("
      ++ from_module ++ "." ++ object_name ++ ")"

/-- Render one chunk exactly as the Python f-strings build it. -/
def renderLine (helper : String) : Line → String
  | .text s => s
  | .importLine m => "import " ++ m ++ "\n"
  | .assign n fm obj dep => n ++ " = " ++ refStr helper fm obj dep ++ "\n"

/-- The content of a generated file: the concatenation of its chunks. -/
def renderContent (helper : String) (ls : List Line) : String :=
  String.join (ls.map (renderLine helper))

/-- `alias_name`: the `as_alias` metadata if truthy, else the object's own
name. -/
def aliasNameOf (e : AliasRec) : String :=
  match e.as_alias with
  | some s => if s = "" then e.object_name else s
  | none => e.object_name

/-- Truthiness of the `deprecated_by` metadata: a non-empty set. -/
def deprecatedTruthy (e : AliasRec) : Bool :=
  match e.deprecated_by with
  | some l => !l.isEmpty
  | none => false

/-- The `available_until` value if truthy (a non-empty string). -/
def availOf (e : AliasRec) : Option String :=
  match e.available_until with
  | some u => if u = "" then none else some u
  | none => none

/-- The deprecation payload of the generated assignment: the sorted
`deprecated_by` entries and the truthy `available_until`, when `deprecated_by`
is truthy. -/
def depOf (e : AliasRec) : Option (List String × Option String) :=
  if deprecatedTruthy e then some (sortStrings (e.deprecated_by.getD []), availOf e) else none

/-- The import bookkeeping for one alias, shared verbatim by both revisions
up to the helper module name (`__init__.py` lines 202-215, `plugin.py` lines
139-149): import the alias's source module if not yet imported, and the
deprecation helper if the alias is deprecated and the helper is not yet
imported.  Returns the new `imported_modules` set and the emitted chunks. -/
def importStep (helper : String) (imp : List String) (e : AliasRec) : List String × List Line :=
  let impNew := !imp.contains e.from_module
  let imported1 := if impNew then e.from_module :: imp else imp
  let hlpNew := deprecatedTruthy e && !imported1.contains helper
  let imported2 := if hlpNew then helper :: imported1 else imported1
  (imported2,
    (if impNew then [Line.importLine e.from_module] else [])
      ++ (if hlpNew then [Line.importLine helper] else []))

/-- The sort key of the alias list: `(x["from_module"], x["object_name"])`. -/
def aliasLe (a b : AliasRec) : Bool :=
  if a.from_module = b.from_module then strLe a.object_name b.object_name
  else strLe a.from_module b.from_module

/-- `root / target.replace(".", "/") / "__init__.py"`.  The dot-split
components are kept opaque: `pathlib`'s normalisation (dropping empty and `.`
components, splitting components that contain `/`) is not modelled, so this
map is injective in the model but collapses ill-formed targets such as `a.b`
versus `a/b` in the program.  It agrees with the program, and is injective as
the program's map, precisely on targets whose components pass `targetWF`
below; the C1 development assumes that. -/
def moduleFile (root : List String) (target : String) : List String :=
  root ++ splitDots target ++ ["__init__.py"]

namespace InitScript

/-- The deprecation helper module of the earlier revision. -/
def HELPER : String := "hopsworks_common.internal.aliases"

/-- The generated-file header of the earlier revision (`__init__.py` line 176). -/
def HEADER : String := "# This file is generated. Do not edit it manually!\n"

/-- The alias loop of `collect_managed` (`__init__.py` lines 187-234).
`declared` is the `declared_names` set; `imported` is the `imported_modules`
set.  On a duplicate alias name the script prints the error and exits, which
we model as `Except.error` carrying the printed message. -/
def managedLoop (module_file : List String) (imported : List String) (declared : List String) :
    List AliasRec → Except String (List Line)
  | [] => .ok []
  | e :: rest =>
    let alias_name := aliasNameOf e
    if declared.contains alias_name then
      .error ("Error: " ++ e.from_module ++ "." ++ e.object_name
        ++ " is attempted to be exported as " ++ alias_name ++ " in " ++ pathStr module_file
        ++ ", but the package already contains this alias.")
    else
      let declared1 := alias_name :: declared
      let st := importStep HELPER imported e
      match managedLoop module_file st.1 declared1 rest with
      | .error err => .error err
      | .ok ls =>
        .ok (st.2 ++ Line.assign alias_name e.from_module e.object_name (depOf e) :: ls)

/-- The per-target iteration of `collect_managed` (`__init__.py` lines
170-234): header chunk, the `if not alias_list: continue` guard, stable sort
by `(from_module, object_name)`, then the alias loop. -/
def collectManagedGo (root : List String) :
    List (String × List AliasRec) → Except String (List (List String × List Line))
  | [] => .ok []
  | (target, l) :: rest =>
    let module_file := moduleFile root target
    if l.isEmpty then
      match collectManagedGo root rest with
      | .error e => .error e
      | .ok m => .ok ((module_file, [Line.text HEADER]) :: m)
    else
      match managedLoop module_file [] [] (isort aliasLe l) with
      | .error e => .error e
      | .ok ls =>
        match collectManagedGo root rest with
        | .error e => .error e
        | .ok m => .ok ((module_file, Line.text HEADER :: ls) :: m)

/-- `collect_managed` (`__init__.py` lines 165-236), producing each file's
chunk list. -/
def collect_managed (root : List String) (tree : List Module) :
    Except String (List (List String × List Line)) :=
  collectManagedGo root (collect_aliases tree)

/-- `collect_managed` with each file's chunks rendered to its content string. -/
def collect_managed_content (root : List String) (tree : List Module) :
    Except String (List (List String × String)) :=
  (collect_managed root tree).map (List.map (fun fl => (fl.1, renderContent HELPER fl.2)))

end InitScript

/-! ### The full kwargs layer

The typed parse above restricts the kwargs dictionary of
`_parse_public_decorator` (`__init__.py` lines 136-162) to the three keyword
names the generator reads back.  The definitions below embed the dictionary
exactly: any keyword whose value is a string literal or carries an `elements`
field is stored (later assignments to the same name overwrite earlier ones),
and the returned metadata is `{"paths": paths, **kwargs}`, so a stored
`paths` keyword replaces the positional path list.  The metadata dictionary
is only ever read at the keys `paths`, `as_alias`, `deprecated_by` and
`available_until`, so the state below tracks exactly those four keys. -/

/-- A value stored in the kwargs dictionary (`__init__.py` lines 148-157): a
stripped string literal, or the set of stripped string elements of a value
with an `elements` field. -/
inductive KwVal where
  | str (s : String)
  | strset (l : List String)
deriving DecidableEq

/-- The value stored for one keyword argument, `none` when the value has
neither shape and the keyword is skipped. -/
def kwValOf : GVal → Option KwVal
  | .str s => some (.str (stripQuotes s))
  | .elems l => some (.strset (setElems l))
  | .other => none

/-- The kwargs dictionary restricted to the four keys the generator reads. -/
structure KwState where
  as_alias : Option KwVal
  deprecated_by : Option KwVal
  available_until : Option KwVal
  pathsKw : Option KwVal
deriving DecidableEq

/-- `kwargs[key] = value` for one keyword argument, at every keyword name. -/
def applyKwFull (st : KwState) (k : String) (v : GVal) : KwState :=
  match kwValOf v with
  | none => st
  | some w =>
    if k = "as_alias" then { st with as_alias := some w }
    else if k = "deprecated_by" then { st with deprecated_by := some w }
    else if k = "available_until" then { st with available_until := some w }
    else if k = "paths" then { st with pathsKw := some w }
    else st

/-- The positional string-literal arguments of a decorator call
(`__init__.py` lines 126-134), stripped of quotes. -/
def posPaths (d : Decorator) : List String :=
  match d.value with
  | .call args => args.filterMap fun a => match a with
    | .pos s => some (stripQuotes s)
    | _ => none
  | .other => []

/-- `_parse_public_decorator` with the full kwargs dictionary: the positional
paths and the final kwargs state after the keyword loop. -/
def parsePublicFull (d : Decorator) : Option (List String × KwState) :=
  match d.value with
  | .call args =>
    some (posPaths d, args.foldl
      (fun st a => match a with
        | .kw k v => applyKwFull st k v
        | _ => st)
      { as_alias := none, deprecated_by := none, available_until := none, pathsKw := none })
  | .other => none

/-- The targets iterated by `for target_module in metadata["paths"]`: the
`paths` keyword value when one was stored (a string is iterated as its
characters, an elements set as its elements), else the positional paths.
The list is empty exactly when `metadata["paths"]` is falsy, so the
`if metadata and metadata["paths"]` guard is the emptiness test on it. -/
def effTargets (paths : List String) (st : KwState) : List String :=
  match st.pathsKw with
  | none => paths
  | some (.str s) => s.toList.map (fun c => String.mk [c])
  | some (.strset l) => l

/-- `list(s)` for a string: its characters, in order, duplicates kept. -/
def charStrings (s : String) : List String := s.toList.map (fun c => String.mk [c])

/-- The alias record collected from one decorator under the full kwargs
layer, at the types the alias loop consumes.  A string-valued
`deprecated_by` is stored and iterated by `list(...)` as its characters,
which `charStrings` renders faithfully.  A truthy set-valued `as_alias`
makes the program raise `TypeError` (`alias_name in declared_names` hashes a
set), and a truthy set-valued `available_until` renders a Python set repr;
both are excluded by the well-formedness hypothesis `treeKwWF` of the
amended C1, under which the conversions below agree with the program. -/
def recFull (fm nm : String) (paths : List String) (st : KwState) : AliasRec :=
  { paths := effTargets paths st,
    from_module := fm,
    object_name := nm,
    as_alias := match st.as_alias with
      | some (.str s) => some s
      | _ => none,
    deprecated_by := match st.deprecated_by with
      | some (.str s) => some (charStrings s)
      | some (.strset l) => some l
      | none => none,
    available_until := match st.available_until with
      | some (.str s) => some s
      | _ => none }

/-- The aliases contributed by one decorator under the full kwargs layer:
one `(target, record)` pair per effective target. -/
def decoratorAliasesFull (fm nm : String) (d : Decorator) : List (String × AliasRec) :=
  if isPublicDec d then
    match parsePublicFull d with
    | some (ps, st) =>
      if (effTargets ps st).isEmpty then []
      else (effTargets ps st).map (fun t => (t, recFull fm nm ps st))
    | none => []
  else []

/-- The flat emission order of the earlier revision's scan under the full
kwargs layer. -/
def scanFullFlat (tree : List Module) : List (String × AliasRec) :=
  tree.flatMap (fun m =>
    m.members.flatMap (fun p =>
      if p.2.is_alias then []
      else
        match p.2.decorators with
        | none => []
        | some ds => ds.flatMap (decoratorAliasesFull m.canonical_path p.1)))

/-- `collect_aliases` under the full kwargs layer. -/
def collect_aliases_full (tree : List Module) : List (String × List AliasRec) :=
  groupAliases (scanFullFlat tree)

/-- `collect_managed` of the earlier revision under the full kwargs layer. -/
def collect_managed_full (root : List String) (tree : List Module) :
    Except String (List (List String × List Line)) :=
  InitScript.collectManagedGo root (collect_aliases_full tree)

/-- Well-formedness of a target module name: its dot-components survive
`pathlib` unchanged — none is empty, `.`, or contains a path separator — so
`moduleFile` agrees with the program on it and is injective across such
targets. -/
def targetWF (t : String) : Bool :=
  (splitDots t).all (fun c => !(c = "") && !(c = ".") && !(c.toList.contains '/'))

/-- A stored keyword value the generator may treat as a plain string: absent,
a string, or a falsy (empty) set. -/
def kwOk : Option KwVal → Bool
  | some (.strset (_ :: _)) => false
  | _ => true

/-- Well-formedness of one decorator's keyword usage: `as_alias` and
`available_until` are not truthy sets (a truthy set `as_alias` crashes the
generator, a truthy set `available_until` renders a set repr). -/
def decKwWF (d : Decorator) : Bool :=
  if isPublicDec d then
    match parsePublicFull d with
    | some (_, st) => kwOk st.as_alias && kwOk st.available_until
    | none => true
  else true

/-- Well-formedness of every decorator's keyword usage in a tree. -/
def treeKwWF (tree : List Module) : Bool :=
  tree.all fun m => m.members.all fun p =>
    match p.2.decorators with
    | none => true
    | some ds => ds.all decKwWF

/-- Truthiness of a `deprecated_by` keyword value as the kwargs dictionary
stores it: a non-empty stripped string, or a non-empty parsed element set. -/
def depKwTruthy : GVal → Bool
  | .str s => !(stripQuotes s = "")
  | .elems l => !(setElems l).isEmpty
  | .other => false

/-- One decorator argument that cannot make the stored `deprecated_by`
truthy. -/
def argNoDep : GArg → Bool
  | .kw k v => !(k = "deprecated_by" && depKwTruthy v)
  | _ => true

/-- No argument of the decorator stores a truthy `deprecated_by`. -/
def decNoDep (d : Decorator) : Bool :=
  match d.value with
  | .call args => args.all argNoDep
  | .other => true

/-- No `@public` decorator of the tree carries a `deprecated_by` keyword
argument with truthy value.  This is a syntactic condition on the source,
read directly off the decorator arguments. -/
def treeNoDep (tree : List Module) : Bool :=
  tree.all fun m => m.members.all fun p =>
    match p.2.decorators with
    | none => true
    | some ds => ds.all (fun d => !isPublicDec d || decNoDep d)

namespace Plugin

/-- The deprecation helper module of the plugin revision. -/
def HELPER : String := "hopsworks_aliases"

/-- Modelled from the spec: `HopsworksAliases.MAGIC_COMMENT` lives in the
missing `extension.py`.  The spec says a managed file is "a generated
`__init__.py` whose content is fully owned by the generator", identified by
the generator's marker comment; we take the marker to be the header literal
of the earlier revision. -/
def MAGIC_COMMENT : String := "# This file is generated. Do not edit it manually!\n"

/-- The alias loop of `collect_managed` (`plugin.py` lines 122-168).
`declared` is the `declared_names` dict mapping each alias name to the
reference it was set to; a duplicate raises `HopsworksAliasesError`, modelled
as `Except.error` with the exception message. -/
def managedLoop (target : String) (imported : List String)
    (declared : List (String × String)) : List AliasRec → Except String (List Line)
  | [] => .ok []
  | e :: rest =>
    let alias_name := aliasNameOf e
    let original_ref := e.from_module ++ "." ++ e.object_name
    match lookupA declared alias_name with
    | some prev =>
      .error ("Error: " ++ original_ref ++ " is attempted to be exported as " ++ alias_name
        ++ " in " ++ target ++ ", but the package already contains this alias, set to "
        ++ prev ++ ".")
    | none =>
      let declared1 := (alias_name, original_ref) :: declared
      let st := importStep HELPER imported e
      match managedLoop target st.1 declared1 rest with
      | .error err => .error err
      | .ok ls =>
        .ok (st.2 ++ Line.assign alias_name e.from_module e.object_name (depOf e) :: ls)

/-- The per-target iteration of `collect_managed` (`plugin.py` lines
109-168): header chunk, stable sort by `(from_module, object_name)`, then the
alias loop. -/
def collectManagedGo (root : List String) :
    List (String × List AliasRec) → Except String (List (List String × List Line))
  | [] => .ok []
  | (target, l) :: rest =>
    let module_file := moduleFile root target
    match managedLoop target [] [] (isort aliasLe l) with
    | .error e => .error e
    | .ok ls =>
      match collectManagedGo root rest with
      | .error e => .error e
      | .ok m => .ok ((module_file, Line.text MAGIC_COMMENT :: ls) :: m)

/-- `collect_managed` (`plugin.py` lines 103-170), producing each file's chunk
list. -/
def collect_managed (root : List String) (tree : List Module) :
    Except String (List (List String × List Line)) :=
  collectManagedGo root (collect_aliases tree)

/-- `collect_managed` with each file's chunks rendered to its content string. -/
def collect_managed_content (root : List String) (tree : List Module) :
    Except String (List (List String × String)) :=
  (collect_managed root tree).map (List.map (fun fl => (fl.1, renderContent HELPER fl.2)))

end Plugin

/-! ### File-system model

The file system is a list of files (relative path components paired with
content) and a list of existing directories.  `rglob("*.py")` hands the
generator the files in walk order, which is the list order here. -/

structure FS where
  files : List (List String × String)
  dirs : List (List String)
deriving DecidableEq

/-- The file name (last path component). -/
def lastComp (p : List String) : String := p.getLastD ""

/-- Whether a path matches the glob `*.py`. -/
def isPyName (p : List String) : Bool := strEndsWith (lastComp p) ".py"

/-- `path.exists()` for a directory; the file-system root (the empty path)
always exists. -/
def dirExistsB (dirs : List (List String)) (p : List String) : Bool :=
  p.isEmpty || dirs.contains p

/-- `Path.relative_to`: strip the base, `none` modelling the `ValueError`. -/
def relTo (base p : List String) : Option (List String) :=
  if base.isPrefixOf p then some (p.drop base.length) else none

/-- `filepath.write_text(content)`: replace the file's content, creating the
file if absent. -/
def writeFile (files : List (List String × String)) (p : List String) (c : String) :
    List (List String × String) :=
  if files.any (fun q => q.1 == p) then files.map (fun q => if q.1 == p then (p, c) else q)
  else files ++ [(p, c)]

/-- `path.touch()`: create an empty file if absent, otherwise leave it. -/
def touchFile (files : List (List String × String)) (p : List String) :
    List (List String × String) :=
  if files.any (fun q => q.1 == p) then files else files ++ [(p, "")]

/-- Look up a file's content. -/
def lookupFile : List (List String × String) → List String → Option String
  | [], _ => none
  | q :: l, p => if q.1 == p then some q.2 else lookupFile l p

namespace InitScript

/-- The part filter of the earlier revision (`__init__.py` lines 36-40). -/
def skipPart (s : String) : Bool :=
  strStartsWith s "." || s == "__pycache__" || s == "build" || s == "dist" || s == "venv"
    || s == ".venv"

/-- `_discover_python_modules` (`__init__.py` lines 27-45): the `*.py` files
whose relative parts pass the filter, in walk order. -/
def _discover_python_modules (files : List (List String × String)) : List (List String) :=
  (files.filter (fun pc => isPyName pc.1 && !pc.1.any skipPart)).map Prod.fst

end InitScript

namespace Plugin

/-- The part filter of the plugin revision (`plugin.py` lines 41-44). -/
def skipPart (s : String) : Bool :=
  strStartsWith s "." || s == "__pycache__" || s == "build" || s == "dist" || s == "venv"

/-- The walk of `_discover_python_modules` (`plugin.py` lines 38-53) over the
files: collect the passing `*.py` files, except that a generated
`__init__.py` (content starting with the magic comment) is unlinked and
skipped. -/
def discoverGo : List (List String × String) → List (List String) × List (List String × String)
  | [] => ([], [])
  | (p, c) :: rest =>
    let (ds, ks) := discoverGo rest
    if !isPyName p then (ds, (p, c) :: ks)
    else if p.any skipPart then (ds, (p, c) :: ks)
    else if lastComp p == "__init__.py" && strStartsWith c MAGIC_COMMENT then (ds, ks)
    else (p :: ds, (p, c) :: ks)

/-- `_discover_python_modules` (`plugin.py` lines 31-55): the discovered
module paths and the file system after the unlinks. -/
def _discover_python_modules (fs : FS) : List (List String) × FS :=
  let r := discoverGo fs.files
  (r.1, { fs with files := r.2 })

/-- The `while not parent.exists()` walk of `generate_aliases` (`plugin.py`
lines 182-185), collecting the missing ancestors from the innermost outward.
The fuel only bounds the iteration count; `p.length + 1` steps always
suffice because the walk stops at the file-system root at the latest. -/
def missingUpFuel (dirs : List (List String)) : Nat → List String → List (List String)
  | 0, _ => []
  | fuel + 1, p => if dirExistsB dirs p then [] else p :: missingUpFuel dirs fuel p.dropLast

/-- The `to_be_created` list for a file's parent directory. -/
def missingUp (dirs : List (List String)) (p : List String) : List (List String) :=
  missingUpFuel dirs (p.length + 1) p

/-- The `for d in reversed(to_be_created)` loop (`plugin.py` lines 187-192):
append a gitignore entry when the directory is under the destination root
(the `ValueError` is suppressed otherwise), create the directory, and touch
an empty `__init__.py` in it. -/
def createDirs (destination_root : List String) :
    FS × List String → List (List String) → FS × List String
  | st, [] => st
  | (fs, entries), d :: ds =>
    let entries1 := match relTo destination_root d with
      | some r => entries ++ ["/" ++ pathStr r]
      | none => entries
    let fs1 : FS := { dirs := fs.dirs ++ [d], files := touchFile fs.files (d ++ ["__init__.py"]) }
    createDirs destination_root (fs1, entries1) ds

/-- The per-file loop of `generate_aliases` (`plugin.py` lines 177-194):
rebase the managed path onto the destination root, create the missing parent
directories, and write the rendered content. -/
def processManaged (source_root destination_root : List String) :
    FS × List String → List (List String × List Line) → Except String (FS × List String)
  | st, [] => .ok st
  | (fs, entries), (fp, ls) :: rest =>
    match relTo source_root fp with
    | none => .error "ValueError"
    | some r =>
      let filepath := destination_root ++ r
      let to_be_created := missingUp fs.dirs filepath.dropLast
      let st1 := createDirs destination_root (fs, entries) to_be_created.reverse
      let fs2 : FS := { st1.1 with
        files := writeFile st1.1.files filepath (renderContent HELPER ls) }
      processManaged source_root destination_root (fs2, st1.2) rest

/-- `generate_aliases` (`plugin.py` lines 173-206).  Besides the final file
system, the result exposes the code's `gitignore_entries` and `managed`
variables, so that properties can be stated about them. -/
def generate_aliases (tree : List Module) (source_root destination_root : List String)
    (fs : FS) : Except String (FS × List String × List (List String × List Line)) :=
  match collect_managed source_root tree with
  | .error e => .error e
  | .ok managed =>
    match processManaged source_root destination_root (fs, []) managed with
    | .error e => .error e
    | .ok st =>
      if st.2.isEmpty then .ok (st.1, st.2, managed)
      else
        let gitignore_path := destination_root ++ [".gitignore"]
        let old := match lookupFile st.1.files gitignore_path with
          | some c => c
          | none => "# Ignore generated alias files\n"
        let content := old ++ String.join ((sortStrings st.2).map (fun x => x ++ "\n"))
        .ok ({ st.1 with files := writeFile st.1.files gitignore_path content }, st.2, managed)

/-- The option state of the `build_aliases` setuptools command
(`plugin.py` lines 209-229). -/
structure BuildAliasesCmd where
  build_temp : Option (List String)
  aliases_dir : Option (List String)
  editable_mode : Bool
deriving DecidableEq

/-- `build_aliases.initialize_options`. -/
def initialize_options : BuildAliasesCmd :=
  { build_temp := none, aliases_dir := none, editable_mode := false }

/-- `build_aliases.finalize_options`: `set_undefined_options` fills
`build_temp` from the `build` command when unset; in editable mode the output
directory is the current directory, otherwise `build_temp / "aliases"`. -/
def finalize_options (buildBuildTemp : List String) (c : BuildAliasesCmd) : BuildAliasesCmd :=
  let bt := c.build_temp.getD buildBuildTemp
  { c with build_temp := some bt,
           aliases_dir := some (if c.editable_mode then [] else bt ++ ["aliases"]) }

/-- `build_aliases.run`: generate the aliases from the current directory into
`aliases_dir`; `none` models the assertion failing when `aliases_dir` was
never set. -/
def runCmd (tree : List Module) (fs : FS) (c : BuildAliasesCmd) :
    Option (Except String (FS × List String × List (List String × List Line))) :=
  c.aliases_dir.map (fun d => generate_aliases tree [] d fs)

end Plugin

/-! ### Lemmas: the string comparison is a total, transitive, antisymmetric order -/

theorem chListLe_total : ∀ as bs : List Char, chListLe as bs = true ∨ chListLe bs as = true
  | [], _ => Or.inl rfl
  | _ :: _, [] => Or.inr rfl
  | a :: as, b :: bs => by
    by_cases h1 : a.toNat < b.toNat
    · left; simp [chListLe, h1]
    · by_cases h2 : b.toNat < a.toNat
      · right; simp [chListLe, h2]
      · rcases chListLe_total as bs with h | h
        · left; simp [chListLe, h1, h2, h]
        · right; simp [chListLe, h1, h2, h]

theorem chListLe_trans : ∀ as bs cs : List Char,
    chListLe as bs = true → chListLe bs cs = true → chListLe as cs = true
  | [], _, _, _, _ => rfl
  | _ :: _, [], _, h1, _ => by simp [chListLe] at h1
  | _ :: _, _ :: _, [], _, h2 => by simp [chListLe] at h2
  | a :: as, b :: bs, c :: cs, h1, h2 => by
    simp only [chListLe] at h1 h2 ⊢
    by_cases hab : a.toNat < b.toNat
    · by_cases hbc : b.toNat < c.toNat
      · simp [Nat.lt_trans hab hbc]
      · by_cases hcb : c.toNat < b.toNat
        · rw [if_neg hbc, if_pos hcb] at h2
          exact absurd h2 (by simp)
        · have hac : a.toNat < c.toNat := by omega
          simp [hac]
    · by_cases hba : b.toNat < a.toNat
      · rw [if_neg hab, if_pos hba] at h1
        exact absurd h1 (by simp)
      · rw [if_neg hab, if_neg hba] at h1
        by_cases hbc : b.toNat < c.toNat
        · have hac : a.toNat < c.toNat := by omega
          simp [hac]
        · by_cases hcb : c.toNat < b.toNat
          · rw [if_neg hbc, if_pos hcb] at h2
            exact absurd h2 (by simp)
          · rw [if_neg hbc, if_neg hcb] at h2
            have hac1 : ¬ a.toNat < c.toNat := by omega
            have hac2 : ¬ c.toNat < a.toNat := by omega
            rw [if_neg hac1, if_neg hac2]
            exact chListLe_trans as bs cs h1 h2

theorem chListLe_antisymm : ∀ as bs : List Char,
    chListLe as bs = true → chListLe bs as = true → as = bs
  | [], [], _, _ => rfl
  | [], _ :: _, _, h2 => by simp [chListLe] at h2
  | _ :: _, [], h1, _ => by simp [chListLe] at h1
  | a :: as, b :: bs, h1, h2 => by
    simp only [chListLe] at h1 h2
    by_cases hab : a.toNat < b.toNat
    · rw [if_neg (by omega : ¬ b.toNat < a.toNat), if_pos hab] at h2
      exact absurd h2 (by simp)
    · by_cases hba : b.toNat < a.toNat
      · rw [if_neg hab, if_pos hba] at h1
        exact absurd h1 (by simp)
      · rw [if_neg hab, if_neg hba] at h1
        rw [if_neg hba, if_neg hab] at h2
        have hn : a.toNat = b.toNat := by omega
        have hc : a = b := Char.ext (UInt32.ext hn)
        rw [hc, chListLe_antisymm as bs h1 h2]

theorem strLe_total (s t : String) : strLe s t = true ∨ strLe t s = true :=
  chListLe_total _ _

theorem strLe_trans {s t u : String} (h1 : strLe s t = true) (h2 : strLe t u = true) :
    strLe s u = true :=
  chListLe_trans _ _ _ h1 h2

theorem strLe_antisymm {s t : String} (h1 : strLe s t = true) (h2 : strLe t s = true) :
    s = t :=
  String.ext (chListLe_antisymm _ _ h1 h2)

/-! ### Lemmas: the stable insertion sort permutes its input and sorts it -/

theorem mem_insertSorted {le : α → α → Bool} {a x : α} : ∀ {l : List α},
    x ∈ insertSorted le a l ↔ x = a ∨ x ∈ l
  | [] => by simp [insertSorted]
  | b :: l => by
    simp only [insertSorted]
    by_cases h : le a b
    · rw [if_pos h]
      simp only [List.mem_cons]
    · rw [if_neg h]
      simp only [List.mem_cons, mem_insertSorted (l := l)]
      tauto

theorem perm_insertSorted (le : α → α → Bool) (a : α) : ∀ l : List α,
    (insertSorted le a l).Perm (a :: l)
  | [] => .refl _
  | b :: l => by
    simp only [insertSorted]
    by_cases h : le a b
    · rw [if_pos h]
    · rw [if_neg h]
      exact ((perm_insertSorted le a l).cons b).trans (List.Perm.swap a b l)

theorem perm_isort (le : α → α → Bool) : ∀ l : List α, (isort le l).Perm l
  | [] => .refl _
  | a :: l => (perm_insertSorted le a (isort le l)).trans ((perm_isort le l).cons a)

theorem pairwise_insertSorted {le : α → α → Bool}
    (htot : ∀ x y, le x y = true ∨ le y x = true)
    (htrans : ∀ x y z, le x y = true → le y z = true → le x z = true)
    (a : α) : ∀ {l : List α}, l.Pairwise (fun x y => le x y = true) →
      (insertSorted le a l).Pairwise (fun x y => le x y = true)
  | [], _ => by simp [insertSorted]
  | b :: l, h => by
    rcases List.pairwise_cons.mp h with ⟨hb, hl⟩
    simp only [insertSorted]
    by_cases hab : le a b
    · rw [if_pos hab]
      refine List.pairwise_cons.mpr ⟨?_, h⟩
      intro x hx
      rcases List.mem_cons.mp hx with hxb | hx
      · rw [hxb]
        exact hab
      · exact htrans a b x hab (hb x hx)
    · rw [if_neg hab]
      refine List.pairwise_cons.mpr ⟨?_, pairwise_insertSorted htot htrans a hl⟩
      intro x hx
      rcases mem_insertSorted.mp hx with hxa | hx
      · rw [hxa]
        rcases htot a b with h' | h'
        · exact absurd h' hab
        · exact h'
      · exact hb x hx

theorem pairwise_isort {le : α → α → Bool}
    (htot : ∀ x y, le x y = true ∨ le y x = true)
    (htrans : ∀ x y z, le x y = true → le y z = true → le x z = true) :
    ∀ l : List α, (isort le l).Pairwise (fun x y => le x y = true)
  | [] => .nil
  | a :: l => pairwise_insertSorted htot htrans a (pairwise_isort htot htrans l)

/-! ### Lemmas: the alias sort key is total and transitive, antisymmetric on keys -/

/-- The sort key `(x["from_module"], x["object_name"])`. -/
def keyOf (e : AliasRec) : String × String := (e.from_module, e.object_name)

theorem aliasLe_total (a b : AliasRec) : aliasLe a b = true ∨ aliasLe b a = true := by
  unfold aliasLe
  by_cases h : a.from_module = b.from_module
  · simp only [if_pos h, if_pos h.symm]
    exact strLe_total _ _
  · have h' : ¬ b.from_module = a.from_module := fun hh => h hh.symm
    simp only [if_neg h, if_neg h']
    exact strLe_total _ _

theorem aliasLe_trans (a b c : AliasRec) :
    aliasLe a b = true → aliasLe b c = true → aliasLe a c = true := by
  unfold aliasLe
  by_cases hab : a.from_module = b.from_module <;>
    by_cases hbc : b.from_module = c.from_module
  · rw [if_pos hab, if_pos hbc, if_pos (hab.trans hbc)]
    exact fun h1 h2 => strLe_trans h1 h2
  · have hac : ¬ a.from_module = c.from_module := by rw [hab]; exact hbc
    rw [if_pos hab, if_neg hbc, if_neg hac, hab]
    exact fun _ h2 => h2
  · have hac : ¬ a.from_module = c.from_module := by rw [hbc] at hab; exact hab
    rw [if_neg hab, if_pos hbc, if_neg hac, hbc]
    exact fun h1 _ => h1
  · intro h1 h2
    rw [if_neg hab] at h1
    rw [if_neg hbc] at h2
    by_cases hac : a.from_module = c.from_module
    · rw [← hac] at h2
      exact absurd (strLe_antisymm h1 h2) hab
    · rw [if_neg hac]
      exact strLe_trans h1 h2

theorem aliasLe_antisymm_key (a b : AliasRec) :
    aliasLe a b = true → aliasLe b a = true → keyOf a = keyOf b := by
  unfold aliasLe
  by_cases h : a.from_module = b.from_module
  · rw [if_pos h, if_pos h.symm]
    intro h1 h2
    unfold keyOf
    rw [h, strLe_antisymm h1 h2]
  · have h' : ¬ b.from_module = a.from_module := fun hh => h hh.symm
    rw [if_neg h, if_neg h']
    intro h1 h2
    exact absurd (strLe_antisymm h1 h2) h

/-- The stable sort of the alias list is canonical: any two permutations of an
alias list with pairwise-distinct sort keys sort to the same list. -/
theorem isort_aliasLe_eq_of_perm {l₁ l₂ : List AliasRec}
    (hperm : l₁.Perm l₂) (hkeys : (l₁.map keyOf).Nodup) :
    isort aliasLe l₁ = isort aliasLe l₂ := by
  have hp : (isort aliasLe l₁).Perm (isort aliasLe l₂) :=
    (perm_isort _ _).trans (hperm.trans (perm_isort aliasLe l₂).symm)
  haveI : IsAntisymm AliasRec (fun a b => aliasLe a b = true ∧ keyOf a ≠ keyOf b) :=
    ⟨fun a b hab hba => absurd (aliasLe_antisymm_key a b hab.1 hba.1) hab.2⟩
  have hnd : ∀ l : List AliasRec, (l.map keyOf).Nodup → l.Perm l₁ →
      (isort aliasLe l).Pairwise (fun a b => aliasLe a b = true ∧ keyOf a ≠ keyOf b) := by
    intro l hnd _
    have h1 := pairwise_isort aliasLe_total aliasLe_trans l
    have h2 : ((isort aliasLe l).map keyOf).Nodup :=
      hnd.perm ((perm_isort aliasLe l).map keyOf).symm
    have h3 : (isort aliasLe l).Pairwise (fun a b => keyOf a ≠ keyOf b) :=
      List.pairwise_map.mp h2
    exact h1.and h3
  have hkeys2 : (l₂.map keyOf).Nodup := hkeys.perm (hperm.map keyOf)
  exact List.eq_of_perm_of_sorted hp
    (hnd l₁ hkeys (List.Perm.refl _)) (hnd l₂ hkeys2 hperm.symm)

/-! ### Lemmas: the per-target dictionary groups the flat emission order -/

/-- Lookup in the per-target dictionary. -/
def lookupG : List (String × List AliasRec) → String → Option (List AliasRec)
  | [], _ => none
  | (k, v) :: l, k' => if k = k' then some v else lookupG l k'

theorem lookupG_addAlias : ∀ (acc : List (String × List AliasRec)) (t : String) (e : AliasRec)
    (q : String),
    lookupG (addAlias acc t e) q =
      if q = t then some ((lookupG acc t).getD [] ++ [e]) else lookupG acc q
  | [], t, e, q => by
    by_cases h : q = t
    · subst h
      simp [addAlias, lookupG]
    · have h' : ¬ t = q := fun hh => h hh.symm
      simp [addAlias, lookupG, h, h']
  | (k0, l0) :: acc, t, e, q => by
    by_cases h : k0 = t
    · subst h
      simp only [addAlias, if_pos rfl, lookupG]
      by_cases hq : k0 = q
      · subst hq
        simp
      · have h1 : ¬ q = k0 := fun hh => hq hh.symm
        simp [hq, h1]
    · simp only [addAlias, if_neg h, lookupG]
      by_cases hq : k0 = q
      · subst hq
        simp [h]
      · rw [if_neg hq, lookupG_addAlias acc t e q]
        simp [h, hq]

theorem keys_addAlias : ∀ (acc : List (String × List AliasRec)) (t : String) (e : AliasRec),
    (addAlias acc t e).map Prod.fst =
      if t ∈ acc.map Prod.fst then acc.map Prod.fst else acc.map Prod.fst ++ [t]
  | [], t, e => by simp [addAlias]
  | (k0, l0) :: acc, t, e => by
    by_cases h : k0 = t
    · subst h
      simp [addAlias]
    · have h' : ¬ t = k0 := fun hh => h hh.symm
      simp only [addAlias, if_neg h, List.map_cons, keys_addAlias acc t e, List.mem_cons, h',
        false_or]
      by_cases ht : t ∈ acc.map Prod.fst
      · simp [ht]
      · simp [ht]

theorem nodupKeys_addAlias {acc : List (String × List AliasRec)} {t : String} {e : AliasRec}
    (h : (acc.map Prod.fst).Nodup) : ((addAlias acc t e).map Prod.fst).Nodup := by
  rw [keys_addAlias]
  by_cases ht : t ∈ acc.map Prod.fst
  · simpa [ht] using h
  · simp only [if_neg ht]
    rw [List.nodup_append]
    refine ⟨h, List.nodup_singleton t, ?_⟩
    intro a ha hat
    rw [List.mem_singleton] at hat
    rw [hat] at ha
    exact ht ha

theorem nodupKeys_foldl : ∀ (flat : List (String × AliasRec))
    (acc : List (String × List AliasRec)), (acc.map Prod.fst).Nodup →
    (((flat.foldl (fun acc p => addAlias acc p.1 p.2) acc)).map Prod.fst).Nodup
  | [], _, h => h
  | p :: flat, acc, h => nodupKeys_foldl flat _ (nodupKeys_addAlias h)

theorem nodupKeys_groupAliases (flat : List (String × AliasRec)) :
    ((groupAliases flat).map Prod.fst).Nodup :=
  nodupKeys_foldl flat [] List.nodup_nil

theorem entriesAt_cons (p : String × AliasRec) (flat : List (String × AliasRec)) (q : String) :
    entriesAt (p :: flat) q =
      if p.1 = q then p.2 :: entriesAt flat q else entriesAt flat q := by
  by_cases h : p.1 = q
  · simp [entriesAt, List.filterMap_cons, h]
  · simp [entriesAt, List.filterMap_cons, h]

theorem lookupG_foldl : ∀ (flat : List (String × AliasRec))
    (acc : List (String × List AliasRec)) (q : String),
    lookupG (flat.foldl (fun acc p => addAlias acc p.1 p.2) acc) q =
      match lookupG acc q, entriesAt flat q with
      | none, [] => none
      | none, l => some l
      | some l0, l => some (l0 ++ l)
  | [], acc, q => by
    simp only [List.foldl_nil, entriesAt, List.filterMap_nil]
    cases lookupG acc q <;> simp
  | (t, e) :: flat, acc, q => by
    simp only [List.foldl_cons]
    rw [lookupG_foldl flat _ q, lookupG_addAlias, entriesAt_cons]
    by_cases hq : q = t
    · subst hq
      rw [if_pos rfl, if_pos rfl]
      cases hl : lookupG acc q <;> simp
    · have h' : ¬ t = q := fun hh => hq hh.symm
      rw [if_neg hq, if_neg h']

theorem lookupG_groupAliases (flat : List (String × AliasRec)) (q : String) :
    lookupG (groupAliases flat) q =
      if entriesAt flat q = [] then none else some (entriesAt flat q) := by
  have h := lookupG_foldl flat [] q
  simp only [groupAliases]
  rw [h]
  cases he : entriesAt flat q <;> simp [lookupG]

theorem mem_iff_lookupG : ∀ {acc : List (String × List AliasRec)} {t : String}
    {l : List AliasRec}, (acc.map Prod.fst).Nodup →
    ((t, l) ∈ acc ↔ lookupG acc t = some l)
  | [], t, l, _ => by simp [lookupG]
  | (k0, l0) :: acc, t, l, h => by
    simp only [List.map_cons, List.nodup_cons] at h
    obtain ⟨hk0, hnd⟩ := h
    by_cases hkt : k0 = t
    · subst hkt
      have hl : lookupG ((k0, l0) :: acc) k0 = some l0 := by simp [lookupG]
      rw [hl]
      constructor
      · intro hc
        rcases List.mem_cons.mp hc with hc | hc
        · injection hc with _ h2
          rw [h2]
        · exact absurd (List.mem_map.mpr ⟨(k0, l), hc, rfl⟩) hk0
      · intro hc
        injection hc with hc
        exact List.mem_cons.mpr (Or.inl (by rw [hc]))
    · have h' : ¬ (t, l) = (k0, l0) := by
        intro hh
        injection hh with h1 _
        exact hkt h1.symm
      simp only [lookupG, if_neg hkt, List.mem_cons, h', false_or]
      exact mem_iff_lookupG hnd

/-- Membership in the per-target dictionary: a target is present exactly when
some alias was collected for it, and its list is the collected list in
emission order. -/
theorem mem_groupAliases {flat : List (String × AliasRec)} {t : String} {l : List AliasRec} :
    (t, l) ∈ groupAliases flat ↔ (l = entriesAt flat t ∧ l ≠ []) := by
  rw [mem_iff_lookupG (nodupKeys_groupAliases flat), lookupG_groupAliases]
  by_cases he : entriesAt flat t = []
  · simp [he]
  · simp only [if_neg he]
    constructor
    · intro h
      injection h with h
      exact ⟨h.symm, by rw [← h]; exact he⟩
    · intro ⟨h, _⟩
      rw [h]

/-! ### Lemmas: the target-to-file translation is injective -/

/-- Rejoin the fragments produced by `splitOnChar`. -/
def joinOnChar (c : Char) : List (List Char) → List Char
  | [] => []
  | [x] => x
  | x :: xs => x ++ c :: joinOnChar c xs

theorem splitOnChar_ne_nil (c : Char) : ∀ l : List Char, splitOnChar c l ≠ []
  | [] => by simp [splitOnChar]
  | a :: as => by
    simp only [splitOnChar]
    by_cases h : a = c
    · simp [h]
    · rw [if_neg h]
      cases splitOnChar c as <;> simp

theorem joinOnChar_splitOnChar (c : Char) : ∀ l : List Char,
    joinOnChar c (splitOnChar c l) = l
  | [] => rfl
  | a :: as => by
    have ih := joinOnChar_splitOnChar c as
    simp only [splitOnChar]
    by_cases h : a = c
    · rw [if_pos h]
      cases hsp : splitOnChar c as with
      | nil => exact absurd hsp (splitOnChar_ne_nil c as)
      | cons x xs =>
        rw [hsp] at ih
        show [] ++ c :: joinOnChar c (x :: xs) = a :: as
        rw [List.nil_append, ih, h]
    · rw [if_neg h]
      cases hsp : splitOnChar c as with
      | nil => exact absurd hsp (splitOnChar_ne_nil c as)
      | cons x xs =>
        rw [hsp] at ih
        cases xs with
        | nil =>
          show a :: x = a :: as
          rw [show joinOnChar c [x] = x from rfl] at ih
          rw [ih]
        | cons y ys =>
          show (a :: x) ++ c :: joinOnChar c (y :: ys) = a :: as
          have ih2 : x ++ c :: joinOnChar c (y :: ys) = as := ih
          rw [List.cons_append, ih2]

theorem splitDots_injective {s t : String} (h : splitDots s = splitDots t) : s = t := by
  have hmk : Function.Injective String.mk := by
    intro a b hh
    injection hh
  have h2 : splitOnChar '.' s.toList = splitOnChar '.' t.toList :=
    List.map_injective_iff.mpr hmk h
  have h3 := joinOnChar_splitOnChar '.' s.toList
  rw [h2, joinOnChar_splitOnChar '.' t.toList] at h3
  exact String.ext h3.symm

theorem moduleFile_injective {root : List String} {t₁ t₂ : String}
    (h : moduleFile root t₁ = moduleFile root t₂) : t₁ = t₂ := by
  unfold moduleFile at h
  exact splitDots_injective (List.append_cancel_left (List.append_cancel_right h))

/-! ### Lemmas: deprecation payload, import bookkeeping, alias-name lookup -/

theorem depOf_ne_none_iff (e : AliasRec) : depOf e ≠ none ↔ deprecatedTruthy e = true := by
  unfold depOf
  by_cases h : deprecatedTruthy e <;> simp [h]

theorem importStep_no_dep (h h' : String) (imp : List String) (e : AliasRec)
    (hd : deprecatedTruthy e = false) : importStep h imp e = importStep h' imp e := by
  simp [importStep, hd]

theorem importStep_chunks (helper : String) (imp : List String) (e : AliasRec) :
    ∀ x ∈ (importStep helper imp e).2, ∃ m, x = Line.importLine m := by
  intro x hx
  simp only [importStep] at hx
  rcases List.mem_append.mp hx with hx | hx
  · by_cases h1 : (!imp.contains e.from_module) = true
    · rw [if_pos h1, List.mem_singleton] at hx
      exact ⟨_, hx⟩
    · rw [if_neg h1] at hx
      exact absurd hx (List.not_mem_nil x)
  · by_cases h2 : (deprecatedTruthy e &&
        !(if (!imp.contains e.from_module) = true then e.from_module :: imp
          else imp).contains helper) = true
    · rw [if_pos h2, List.mem_singleton] at hx
      exact ⟨_, hx⟩
    · rw [if_neg h2] at hx
      exact absurd hx (List.not_mem_nil x)

theorem importStep_fst_mem (helper : String) (imp : List String) (e : AliasRec) :
    e.from_module ∈ (importStep helper imp e).1 ∧
    (∀ a ∈ imp, a ∈ (importStep helper imp e).1) ∧
    (deprecatedTruthy e = true → helper ∈ (importStep helper imp e).1) := by
  simp only [importStep]
  by_cases h1 : imp.contains e.from_module
  · have hm : e.from_module ∈ imp := List.elem_iff.mp h1
    simp only [h1, Bool.not_true, Bool.false_eq_true, if_false]
    by_cases h2 : deprecatedTruthy e && !imp.contains helper
    · simp only [h2, if_true]
      refine ⟨List.mem_cons_of_mem _ hm, fun a ha => List.mem_cons_of_mem _ ha,
        fun _ => List.mem_cons_self _ _⟩
    · simp only [h2, Bool.false_eq_true, if_false]
      refine ⟨hm, fun a ha => ha, fun ht => ?_⟩
      rw [ht, Bool.true_and, Bool.not_eq_true', Bool.not_eq_false] at h2
      exact List.elem_iff.mp h2
  · simp only [h1, Bool.not_false, if_true]
    by_cases h2 : deprecatedTruthy e && !(e.from_module :: imp).contains helper
    · simp only [h2, if_true]
      refine ⟨List.mem_cons_of_mem _ (List.mem_cons_self _ _),
        fun a ha => List.mem_cons_of_mem _ (List.mem_cons_of_mem _ ha),
        fun _ => List.mem_cons_self _ _⟩
    · simp only [h2, Bool.false_eq_true, if_false]
      refine ⟨List.mem_cons_self _ _, fun a ha => List.mem_cons_of_mem _ ha, fun ht => ?_⟩
      rw [ht, Bool.true_and, Bool.not_eq_true', Bool.not_eq_false] at h2
      exact List.elem_iff.mp h2

/-- Import-before-use discipline of a chunk list, relative to a set of
already-imported modules: an `import M` chunk appears only when `M` is not yet
imported (hence each module is imported at most once), and an assignment
refers only to already-imported modules: its source module, and the
deprecation helper whenever it carries a deprecation payload. -/
def goodLines (helper : String) (imp : List String) : List Line → Prop
  | [] => True
  | .text _ :: ls => goodLines helper imp ls
  | .importLine m :: ls => m ∉ imp ∧ goodLines helper (m :: imp) ls
  | .assign _ fm _ dep :: ls =>
    fm ∈ imp ∧ (dep ≠ none → helper ∈ imp) ∧ goodLines helper imp ls

theorem goodLines_importStep (helper : String) (imp : List String) (e : AliasRec)
    (n obj : String) (ls : List Line)
    (h : goodLines helper (importStep helper imp e).1 ls) :
    goodLines helper imp
      ((importStep helper imp e).2 ++ Line.assign n e.from_module obj (depOf e) :: ls) := by
  simp only [importStep] at h ⊢
  by_cases h1 : imp.contains e.from_module
  · have hm : e.from_module ∈ imp := List.elem_iff.mp h1
    simp only [h1, Bool.not_true, Bool.false_eq_true, if_false] at h ⊢
    by_cases h2 : deprecatedTruthy e && !imp.contains helper
    · simp only [h2, if_true, List.nil_append] at h ⊢
      refine ⟨?_, List.mem_cons_of_mem _ hm, fun _ => List.mem_cons_self _ _, h⟩
      rw [Bool.and_eq_true, Bool.not_eq_true', ← Bool.not_eq_true] at h2
      intro hmem
      exact h2.2 (List.elem_iff.mpr hmem)
    · simp only [h2, Bool.false_eq_true, if_false, List.nil_append] at h ⊢
      refine ⟨hm, fun hd => ?_, h⟩
      have ht := (depOf_ne_none_iff e).mp hd
      rw [ht, Bool.true_and, Bool.not_eq_true', Bool.not_eq_false] at h2
      exact List.elem_iff.mp h2
  · have hm : e.from_module ∉ imp := fun hmem => h1 (List.elem_iff.mpr hmem)
    simp only [h1, Bool.not_false, if_true] at h ⊢
    by_cases h2 : deprecatedTruthy e && !(e.from_module :: imp).contains helper
    · simp only [h2, if_true] at h ⊢
      refine ⟨hm, ?_, List.mem_cons_of_mem _ (List.mem_cons_self _ _),
        fun _ => List.mem_cons_self _ _, h⟩
      rw [Bool.and_eq_true, Bool.not_eq_true', ← Bool.not_eq_true] at h2
      intro hmem
      exact h2.2 (List.elem_iff.mpr hmem)
    · simp only [h2, Bool.false_eq_true, if_false] at h ⊢
      refine ⟨hm, List.mem_cons_self _ _, fun hd => ?_, h⟩
      have ht := (depOf_ne_none_iff e).mp hd
      rw [ht, Bool.true_and, Bool.not_eq_true', Bool.not_eq_false] at h2
      exact List.elem_iff.mp h2

theorem lookupA_eq_none_iff : ∀ (dec : List (String × String)) (q : String),
    lookupA dec q = none ↔ q ∉ dec.map Prod.fst
  | [], q => by simp [lookupA]
  | (k, v) :: dec, q => by
    simp only [lookupA, List.map_cons, List.mem_cons]
    by_cases h : k = q
    · simp [h]
    · have h' : ¬ q = k := fun hh => h hh.symm
      simp [h, h', lookupA_eq_none_iff dec q]

theorem lookupA_cons_none {k v q : String} {dec : List (String × String)} :
    lookupA ((k, v) :: dec) q = none ↔ (¬ k = q ∧ lookupA dec q = none) := by
  simp only [lookupA]
  by_cases h : k = q <;> simp [h]

/-! ### Lemmas: the alias loop of the plugin revision -/

theorem plugin_managedLoop_goodLines : ∀ (l : List AliasRec) (target : String)
    (imp : List String) (dec : List (String × String)) {ls : List Line},
    Plugin.managedLoop target imp dec l = .ok ls → goodLines Plugin.HELPER imp ls
  | [], _, imp, dec, ls, h => by
    simp only [Plugin.managedLoop] at h
    injection h with h
    rw [← h]
    trivial
  | e :: rest, target, imp, dec, ls, h => by
    simp only [Plugin.managedLoop] at h
    cases hlk : lookupA dec (aliasNameOf e) with
    | some prev =>
      rw [hlk] at h
      exact absurd h (by simp)
    | none =>
      rw [hlk] at h
      cases hrec : Plugin.managedLoop target (importStep Plugin.HELPER imp e).1
          ((aliasNameOf e, e.from_module ++ "." ++ e.object_name) :: dec) rest with
      | error err =>
        rw [hrec] at h
        exact absurd h (by simp)
      | ok ls' =>
        rw [hrec] at h
        injection h with h
        rw [← h]
        exact goodLines_importStep Plugin.HELPER imp e _ _ ls'
          (plugin_managedLoop_goodLines rest target _ _ hrec)

theorem plugin_managedLoop_assign_mem : ∀ (l : List AliasRec) (target : String)
    (imp : List String) (dec : List (String × String)) {ls : List Line},
    Plugin.managedLoop target imp dec l = .ok ls →
    ∀ n fm obj dep, (Line.assign n fm obj dep ∈ ls ↔
      ∃ e ∈ l, n = aliasNameOf e ∧ fm = e.from_module ∧ obj = e.object_name ∧ dep = depOf e)
  | [], _, imp, dec, ls, h, n, fm, obj, dep => by
    simp only [Plugin.managedLoop] at h
    injection h with h
    rw [← h]
    simp
  | e :: rest, target, imp, dec, ls, h, n, fm, obj, dep => by
    simp only [Plugin.managedLoop] at h
    cases hlk : lookupA dec (aliasNameOf e) with
    | some prev =>
      rw [hlk] at h
      exact absurd h (by simp)
    | none =>
      rw [hlk] at h
      cases hrec : Plugin.managedLoop target (importStep Plugin.HELPER imp e).1
          ((aliasNameOf e, e.from_module ++ "." ++ e.object_name) :: dec) rest with
      | error err =>
        rw [hrec] at h
        exact absurd h (by simp)
      | ok ls' =>
        rw [hrec] at h
        injection h with h
        rw [← h]
        have ih := plugin_managedLoop_assign_mem rest target _ _ hrec n fm obj dep
        constructor
        · intro hx
          rcases List.mem_append.mp hx with hx | hx
          · obtain ⟨m, hm⟩ := importStep_chunks Plugin.HELPER imp e _ hx
            exact absurd hm (by simp)
          · rcases List.mem_cons.mp hx with hx | hx
            · injection hx with h1 h2 h3 h4
              exact ⟨e, List.mem_cons_self _ _, h1, h2, h3, h4⟩
            · obtain ⟨e', he', hprops⟩ := ih.mp hx
              exact ⟨e', List.mem_cons_of_mem _ he', hprops⟩
        · rintro ⟨e', he', h1, h2, h3, h4⟩
          rcases List.mem_cons.mp he' with he' | he'
          · subst he'
            refine List.mem_append.mpr (Or.inr (List.mem_cons.mpr (Or.inl ?_)))
            rw [h1, h2, h3, h4]
          · exact List.mem_append.mpr (Or.inr (List.mem_cons.mpr
              (Or.inr (ih.mpr ⟨e', he', h1, h2, h3, h4⟩))))

theorem plugin_managedLoop_isOk : ∀ (l : List AliasRec) (target : String)
    (imp : List String) (dec : List (String × String)),
    (∃ ls, Plugin.managedLoop target imp dec l = .ok ls) ↔
      ((l.map aliasNameOf).Nodup ∧ ∀ n ∈ l.map aliasNameOf, lookupA dec n = none)
  | [], target, imp, dec => by
    simp [Plugin.managedLoop]
  | e :: rest, target, imp, dec => by
    simp only [Plugin.managedLoop, List.map_cons, List.nodup_cons, List.mem_cons]
    cases hlk : lookupA dec (aliasNameOf e) with
    | some prev =>
      constructor
      · rintro ⟨ls, hls⟩
        exact absurd hls (by simp)
      · rintro ⟨_, hall⟩
        have hh := hall (aliasNameOf e) (Or.inl rfl)
        rw [hlk] at hh
        exact absurd hh (by simp)
    | none =>
      have ih := plugin_managedLoop_isOk rest target (importStep Plugin.HELPER imp e).1
        ((aliasNameOf e, e.from_module ++ "." ++ e.object_name) :: dec)
      constructor
      · rintro ⟨ls, hls⟩
        cases hrec : Plugin.managedLoop target (importStep Plugin.HELPER imp e).1
            ((aliasNameOf e, e.from_module ++ "." ++ e.object_name) :: dec) rest with
        | error err =>
          rw [hrec] at hls
          exact absurd hls (by simp)
        | ok ls' =>
          obtain ⟨hnd, hall⟩ := ih.mp ⟨ls', hrec⟩
          refine ⟨⟨?_, hnd⟩, ?_⟩
          · intro hmem
            have hh := hall _ hmem
            rw [lookupA_cons_none] at hh
            exact hh.1 rfl
          · intro nn hnn
            rcases hnn with hnn | hnn
            · rw [hnn]
              exact hlk
            · exact ((lookupA_cons_none).mp (hall nn hnn)).2
      · rintro ⟨⟨hnotmem, hnd⟩, hall⟩
        have hrest : ∀ n ∈ rest.map aliasNameOf,
            lookupA ((aliasNameOf e, e.from_module ++ "." ++ e.object_name) :: dec) n = none := by
          intro nn hnn
          rw [lookupA_cons_none]
          exact ⟨fun hh => hnotmem (hh ▸ hnn), hall nn (Or.inr hnn)⟩
        obtain ⟨ls', hrec⟩ := ih.mpr ⟨hnd, hrest⟩
        exact ⟨_, by rw [hrec]⟩

/-! ### Lemmas: the alias loop of the earlier revision -/

theorem init_managedLoop_assign_mem : ∀ (l : List AliasRec) (mf : List String)
    (imp : List String) (dec : List String) {ls : List Line},
    InitScript.managedLoop mf imp dec l = .ok ls →
    ∀ n fm obj dep, (Line.assign n fm obj dep ∈ ls ↔
      ∃ e ∈ l, n = aliasNameOf e ∧ fm = e.from_module ∧ obj = e.object_name ∧ dep = depOf e)
  | [], _, imp, dec, ls, h, n, fm, obj, dep => by
    simp only [InitScript.managedLoop] at h
    injection h with h
    rw [← h]
    simp
  | e :: rest, mf, imp, dec, ls, h, n, fm, obj, dep => by
    simp only [InitScript.managedLoop] at h
    by_cases hc : dec.contains (aliasNameOf e) = true
    · rw [if_pos hc] at h
      exact absurd h (by simp)
    · rw [if_neg hc] at h
      cases hrec : InitScript.managedLoop mf (importStep InitScript.HELPER imp e).1
          (aliasNameOf e :: dec) rest with
      | error err =>
        rw [hrec] at h
        exact absurd h (by simp)
      | ok ls' =>
        rw [hrec] at h
        injection h with h
        rw [← h]
        have ih := init_managedLoop_assign_mem rest mf _ _ hrec n fm obj dep
        constructor
        · intro hx
          rcases List.mem_append.mp hx with hx | hx
          · obtain ⟨m, hm⟩ := importStep_chunks InitScript.HELPER imp e _ hx
            exact absurd hm (by simp)
          · rcases List.mem_cons.mp hx with hx | hx
            · injection hx with h1 h2 h3 h4
              exact ⟨e, List.mem_cons_self _ _, h1, h2, h3, h4⟩
            · obtain ⟨e', he', hprops⟩ := ih.mp hx
              exact ⟨e', List.mem_cons_of_mem _ he', hprops⟩
        · rintro ⟨e', he', h1, h2, h3, h4⟩
          rcases List.mem_cons.mp he' with he' | he'
          · subst he'
            refine List.mem_append.mpr (Or.inr (List.mem_cons.mpr (Or.inl ?_)))
            rw [h1, h2, h3, h4]
          · exact List.mem_append.mpr (Or.inr (List.mem_cons.mpr
              (Or.inr (ih.mpr ⟨e', he', h1, h2, h3, h4⟩))))

theorem init_managedLoop_isOk : ∀ (l : List AliasRec) (mf : List String)
    (imp : List String) (dec : List String),
    (∃ ls, InitScript.managedLoop mf imp dec l = .ok ls) ↔
      ((l.map aliasNameOf).Nodup ∧ ∀ n ∈ l.map aliasNameOf, n ∉ dec)
  | [], mf, imp, dec => by
    simp [InitScript.managedLoop]
  | e :: rest, mf, imp, dec => by
    simp only [InitScript.managedLoop, List.map_cons, List.nodup_cons, List.mem_cons]
    by_cases hc : dec.contains (aliasNameOf e) = true
    · rw [if_pos hc]
      constructor
      · rintro ⟨ls, hls⟩
        exact absurd hls (by simp)
      · rintro ⟨_, hall⟩
        exact absurd (List.elem_iff.mp hc) (hall (aliasNameOf e) (Or.inl rfl))
    · rw [if_neg hc]
      have ih := init_managedLoop_isOk rest mf (importStep InitScript.HELPER imp e).1
        (aliasNameOf e :: dec)
      constructor
      · rintro ⟨ls, hls⟩
        cases hrec : InitScript.managedLoop mf (importStep InitScript.HELPER imp e).1
            (aliasNameOf e :: dec) rest with
        | error err =>
          rw [hrec] at hls
          exact absurd hls (by simp)
        | ok ls' =>
          obtain ⟨hnd, hall⟩ := ih.mp ⟨ls', hrec⟩
          refine ⟨⟨?_, hnd⟩, ?_⟩
          · intro hmem
            exact hall _ hmem (List.mem_cons_self _ _)
          · intro nn hnn
            rcases hnn with hnn | hnn
            · rw [hnn]
              intro hmem
              exact hc (List.elem_iff.mpr hmem)
            · exact fun hmem => hall nn hnn (List.mem_cons_of_mem _ hmem)
      · rintro ⟨⟨hnotmem, hnd⟩, hall⟩
        have hrest : ∀ n ∈ rest.map aliasNameOf, n ∉ aliasNameOf e :: dec := by
          intro nn hnn hmem
          rcases List.mem_cons.mp hmem with hh | hh
          · exact hnotmem (hh ▸ hnn)
          · exact hall nn (Or.inr hnn) hh
        obtain ⟨ls', hrec⟩ := ih.mpr ⟨hnd, hrest⟩
        exact ⟨_, by rw [hrec]⟩

/-! ### Lemmas: the per-target iteration of collect_managed -/

theorem plugin_collectManagedGo_mem : ∀ (assoc : List (String × List AliasRec))
    (root : List String) {m : List (List String × List Line)},
    Plugin.collectManagedGo root assoc = .ok m →
    ∀ f ls, ((f, ls) ∈ m ↔ ∃ t l ls',
      (t, l) ∈ assoc ∧ f = moduleFile root t ∧
      Plugin.managedLoop t [] [] (isort aliasLe l) = .ok ls' ∧
      ls = Line.text Plugin.MAGIC_COMMENT :: ls')
  | [], root, m, h, f, ls => by
    simp only [Plugin.collectManagedGo] at h
    injection h with h
    rw [← h]
    simp
  | (target, l) :: assoc, root, m, h, f, ls => by
    simp only [Plugin.collectManagedGo] at h
    cases hloop : Plugin.managedLoop target [] [] (isort aliasLe l) with
    | error err =>
      rw [hloop] at h
      exact absurd h (by simp)
    | ok ls0 =>
      rw [hloop] at h
      cases hrec : Plugin.collectManagedGo root assoc with
      | error err =>
        rw [hrec] at h
        exact absurd h (by simp)
      | ok m' =>
        rw [hrec] at h
        injection h with h
        rw [← h]
        have ih := plugin_collectManagedGo_mem assoc root hrec f ls
        constructor
        · intro hx
          rcases List.mem_cons.mp hx with hx | hx
          · injection hx with h1 h2
            exact ⟨target, l, ls0, List.mem_cons_self _ _, h1, hloop, h2⟩
          · obtain ⟨t, l', ls', ht, hf, hl, hls⟩ := ih.mp hx
            exact ⟨t, l', ls', List.mem_cons_of_mem _ ht, hf, hl, hls⟩
        · rintro ⟨t, l', ls', ht, hf, hl, hls⟩
          rcases List.mem_cons.mp ht with ht | ht
          · injection ht with ht1 ht2
            rw [ht1, ht2] at hl
            rw [hloop] at hl
            injection hl with hl
            refine List.mem_cons.mpr (Or.inl ?_)
            rw [hf, ht1, hls, ← hl]
          · exact List.mem_cons.mpr (Or.inr (ih.mpr ⟨t, l', ls', ht, hf, hl, hls⟩))

theorem plugin_collectManagedGo_isOk : ∀ (assoc : List (String × List AliasRec))
    (root : List String),
    (∃ m, Plugin.collectManagedGo root assoc = .ok m) ↔
      ∀ p ∈ assoc, ∃ ls, Plugin.managedLoop p.1 [] [] (isort aliasLe p.2) = .ok ls
  | [], root => by simp [Plugin.collectManagedGo]
  | (target, l) :: assoc, root => by
    simp only [Plugin.collectManagedGo]
    cases hloop : Plugin.managedLoop target [] [] (isort aliasLe l) with
    | error err =>
      constructor
      · rintro ⟨m, hm⟩
        exact absurd hm (by simp)
      · intro hall
        obtain ⟨ls, hls⟩ := hall (target, l) (List.mem_cons_self _ _)
        rw [hloop] at hls
        exact absurd hls (by simp)
    | ok ls0 =>
      have ih := plugin_collectManagedGo_isOk assoc root
      constructor
      · rintro ⟨m, hm⟩
        cases hrec : Plugin.collectManagedGo root assoc with
        | error err =>
          rw [hrec] at hm
          exact absurd hm (by simp)
        | ok m' =>
          intro p hp
          rcases List.mem_cons.mp hp with hp | hp
          · rw [hp]
            exact ⟨ls0, hloop⟩
          · exact ih.mp ⟨m', hrec⟩ p hp
      · intro hall
        obtain ⟨m', hrec⟩ := ih.mpr (fun p hp => hall p (List.mem_cons_of_mem _ hp))
        exact ⟨_, by rw [hrec]⟩

theorem init_collectManagedGo_mem : ∀ (assoc : List (String × List AliasRec))
    (root : List String) {m : List (List String × List Line)},
    InitScript.collectManagedGo root assoc = .ok m →
    ∀ f ls, ((f, ls) ∈ m ↔ ∃ t l,
      (t, l) ∈ assoc ∧ f = moduleFile root t ∧
      ((l = [] ∧ ls = [Line.text InitScript.HEADER]) ∨ ∃ ls',
        InitScript.managedLoop (moduleFile root t) [] [] (isort aliasLe l) = .ok ls' ∧
        ls = Line.text InitScript.HEADER :: ls'))
  | [], root, m, h, f, ls => by
    simp only [InitScript.collectManagedGo] at h
    injection h with h
    rw [← h]
    simp
  | (target, l) :: assoc, root, m, h, f, ls => by
    simp only [InitScript.collectManagedGo] at h
    by_cases he : l.isEmpty
    · rw [if_pos he] at h
      have hl : l = [] := List.isEmpty_iff.mp he
      cases hrec : InitScript.collectManagedGo root assoc with
      | error err =>
        rw [hrec] at h
        exact absurd h (by simp)
      | ok m' =>
        rw [hrec] at h
        injection h with h
        rw [← h]
        have ih := init_collectManagedGo_mem assoc root hrec f ls
        constructor
        · intro hx
          rcases List.mem_cons.mp hx with hx | hx
          · injection hx with h1 h2
            exact ⟨target, l, List.mem_cons_self _ _, h1, Or.inl ⟨hl, h2⟩⟩
          · obtain ⟨t, l', ht, hf, hrest⟩ := ih.mp hx
            exact ⟨t, l', List.mem_cons_of_mem _ ht, hf, hrest⟩
        · rintro ⟨t, l', ht, hf, hrest⟩
          rcases List.mem_cons.mp ht with ht | ht
          · injection ht with ht1 ht2
            refine List.mem_cons.mpr (Or.inl ?_)
            rcases hrest with ⟨_, hls⟩ | ⟨ls', hloop, hls⟩
            · rw [hf, ht1, hls]
            · rw [ht1, ht2, hl] at hloop
              have hnil : InitScript.managedLoop (moduleFile root target) [] []
                  (isort aliasLe []) = .ok [] := rfl
              rw [hnil] at hloop
              injection hloop with hloop
              rw [hf, ht1, hls, ← hloop]
          · exact List.mem_cons.mpr (Or.inr (ih.mpr ⟨t, l', ht, hf, hrest⟩))
    · rw [if_neg he] at h
      cases hloop : InitScript.managedLoop (moduleFile root target) [] []
          (isort aliasLe l) with
      | error err =>
        rw [hloop] at h
        exact absurd h (by simp)
      | ok ls0 =>
        rw [hloop] at h
        cases hrec : InitScript.collectManagedGo root assoc with
        | error err =>
          rw [hrec] at h
          exact absurd h (by simp)
        | ok m' =>
          rw [hrec] at h
          injection h with h
          rw [← h]
          have ih := init_collectManagedGo_mem assoc root hrec f ls
          constructor
          · intro hx
            rcases List.mem_cons.mp hx with hx | hx
            · injection hx with h1 h2
              exact ⟨target, l, List.mem_cons_self _ _, h1, Or.inr ⟨ls0, hloop, h2⟩⟩
            · obtain ⟨t, l', ht, hf, hrest⟩ := ih.mp hx
              exact ⟨t, l', List.mem_cons_of_mem _ ht, hf, hrest⟩
          · rintro ⟨t, l', ht, hf, hrest⟩
            rcases List.mem_cons.mp ht with ht | ht
            · injection ht with ht1 ht2
              refine List.mem_cons.mpr (Or.inl ?_)
              rcases hrest with ⟨hl', hls⟩ | ⟨ls', hloop', hls⟩
              · rw [hl'] at ht2
                rw [← ht2] at he
                exact absurd rfl he
              · rw [ht1, ht2] at hloop'
                rw [hloop] at hloop'
                injection hloop' with hloop'
                rw [hf, ht1, hls, ← hloop']
            · exact List.mem_cons.mpr (Or.inr (ih.mpr ⟨t, l', ht, hf, hrest⟩))

theorem init_collectManagedGo_isOk : ∀ (assoc : List (String × List AliasRec))
    (root : List String),
    (∃ m, InitScript.collectManagedGo root assoc = .ok m) ↔
      ∀ p ∈ assoc, p.2 = [] ∨ ∃ ls,
        InitScript.managedLoop (moduleFile root p.1) [] [] (isort aliasLe p.2) = .ok ls
  | [], root => by simp [InitScript.collectManagedGo]
  | (target, l) :: assoc, root => by
    simp only [InitScript.collectManagedGo]
    have ih := init_collectManagedGo_isOk assoc root
    by_cases he : l.isEmpty
    · rw [if_pos he]
      have hl : l = [] := List.isEmpty_iff.mp he
      constructor
      · rintro ⟨m, hm⟩
        cases hrec : InitScript.collectManagedGo root assoc with
        | error err =>
          rw [hrec] at hm
          exact absurd hm (by simp)
        | ok m' =>
          intro p hp
          rcases List.mem_cons.mp hp with hp | hp
          · rw [hp]
            exact Or.inl hl
          · exact ih.mp ⟨m', hrec⟩ p hp
      · intro hall
        obtain ⟨m', hrec⟩ := ih.mpr (fun p hp => hall p (List.mem_cons_of_mem _ hp))
        exact ⟨_, by rw [hrec]⟩
    · rw [if_neg he]
      cases hloop : InitScript.managedLoop (moduleFile root target) [] []
          (isort aliasLe l) with
      | error err =>
        constructor
        · rintro ⟨m, hm⟩
          exact absurd hm (by simp)
        · intro hall
          rcases hall (target, l) (List.mem_cons_self _ _) with hl | ⟨ls, hls⟩
          · have hl2 : l = [] := hl
            rw [hl2] at he
            exact absurd rfl he
          · rw [hloop] at hls
            exact absurd hls (by simp)
      | ok ls0 =>
        constructor
        · rintro ⟨m, hm⟩
          cases hrec : InitScript.collectManagedGo root assoc with
          | error err =>
            rw [hrec] at hm
            exact absurd hm (by simp)
          | ok m' =>
            intro p hp
            rcases List.mem_cons.mp hp with hp | hp
            · rw [hp]
              exact Or.inr ⟨ls0, hloop⟩
            · exact ih.mp ⟨m', hrec⟩ p hp
        · intro hall
          obtain ⟨m', hrec⟩ := ih.mpr (fun p hp => hall p (List.mem_cons_of_mem _ hp))
          exact ⟨_, by rw [hrec]⟩

/-! ### Lemmas: rendering -/

theorem string_join_cons (s : String) (l : List String) :
    String.join (s :: l) = s ++ String.join l := by
  apply String.ext
  simp [String.join_eq]

theorem renderContent_cons (helper : String) (x : Line) (ls : List Line) :
    renderContent helper (x :: ls) = renderLine helper x ++ renderContent helper ls := by
  unfold renderContent
  rw [List.map_cons, string_join_cons]

theorem renderContent_agree (h h' : String) : ∀ ls : List Line,
    (∀ n fm obj d, Line.assign n fm obj d ∈ ls → d = none) →
    renderContent h ls = renderContent h' ls
  | [], _ => rfl
  | x :: ls, hx => by
    rw [renderContent_cons, renderContent_cons,
      renderContent_agree h h' ls (fun n fm obj d hm => hx n fm obj d (List.mem_cons_of_mem _ hm))]
    congr 1
    cases x with
    | text s => rfl
    | importLine m => rfl
    | assign n fm obj d =>
      have hd : d = none := hx n fm obj d (List.mem_cons_self _ _)
      rw [hd]
      rfl

theorem flatMap_filterMap_eq {α β γ : Type} (g : α → Option β) (f : β → List γ) :
    ∀ l : List α,
    (l.filterMap g).flatMap f = l.flatMap (fun a => ((g a).map f).getD [])
  | [] => rfl
  | a :: l => by
    cases hg : g a <;>
      simp [List.filterMap_cons, hg, flatMap_filterMap_eq g f l]

theorem decoratorAliases_eq (fm nm : String) (d : Decorator) :
    InitScript.decoratorAliases fm nm d =
      ((if isPublicDec d then
          match _parse_public_decorator d with
          | some md => if md.paths.isEmpty then none else some (mdToRec fm nm md)
          | none => none
        else none).map (fun a => a.paths.map (fun t => (t, a)))).getD [] := by
  unfold InitScript.decoratorAliases
  by_cases hp : isPublicDec d
  · rw [if_pos hp, if_pos hp]
    cases hmd : _parse_public_decorator d with
    | none => rfl
    | some md =>
      by_cases he : md.paths.isEmpty <;> simp [he, mdToRec]
  · rw [if_neg hp, if_neg hp]
    rfl

theorem scan_module_eq (m : Module) :
    InitScript._scan_module_for_public_decorators m =
      m.members.flatMap (fun p =>
        (Plugin.hopsworksAliasesOf m.canonical_path p.1 p.2).flatMap
          (fun a => a.paths.map (fun t => (t, a)))) := by
  unfold InitScript._scan_module_for_public_decorators Plugin.hopsworksAliasesOf
  congr 1
  funext p
  by_cases ha : p.2.is_alias
  · simp [ha]
  · rw [if_neg ha, if_neg ha]
    cases hd : p.2.decorators with
    | none => rfl
    | some ds =>
      show ds.flatMap (InitScript.decoratorAliases m.canonical_path p.1) = _
      rw [flatMap_filterMap_eq]
      congr 1
      funext d
      exact decoratorAliases_eq m.canonical_path p.1 d

theorem scanFlat_eq (tree : List Module) : InitScript.scanFlat tree = Plugin.scanFlat tree := by
  unfold InitScript.scanFlat Plugin.scanFlat
  congr 1
  funext m
  exact scan_module_eq m

theorem collect_aliases_eq (tree : List Module) :
    InitScript.collect_aliases tree = Plugin.collect_aliases tree := by
  unfold InitScript.collect_aliases Plugin.collect_aliases
  rw [scanFlat_eq]

/-! ### Lemmas: without deprecation metadata the two alias loops agree -/

theorem managedLoop_agree : ∀ (l : List AliasRec) (mf : List String) (target : String)
    (imp : List String) (decP : List (String × String)),
    (∀ e ∈ l, deprecatedTruthy e = false) →
    ∀ ls, (InitScript.managedLoop mf imp (decP.map Prod.fst) l = .ok ls ↔
      Plugin.managedLoop target imp decP l = .ok ls)
  | [], mf, target, imp, decP, _, ls => by
    simp [InitScript.managedLoop, Plugin.managedLoop]
  | e :: rest, mf, target, imp, decP, hnd, ls => by
    have hde : deprecatedTruthy e = false := hnd e (List.mem_cons_self _ _)
    have hrest : ∀ e' ∈ rest, deprecatedTruthy e' = false :=
      fun e' he' => hnd e' (List.mem_cons_of_mem _ he')
    simp only [InitScript.managedLoop, Plugin.managedLoop]
    by_cases hc : (decP.map Prod.fst).contains (aliasNameOf e) = true
    · rw [if_pos hc]
      cases hlk : lookupA decP (aliasNameOf e) with
      | none =>
        rw [lookupA_eq_none_iff] at hlk
        exact absurd (List.elem_iff.mp hc) hlk
      | some prev => simp
    · rw [if_neg hc]
      have hlk : lookupA decP (aliasNameOf e) = none := by
        rw [lookupA_eq_none_iff]
        exact fun hmem => hc (List.elem_iff.mpr hmem)
      rw [hlk]
      rw [importStep_no_dep InitScript.HELPER Plugin.HELPER imp e hde]
      have hmap : aliasNameOf e :: List.map Prod.fst decP
          = ((aliasNameOf e, e.from_module ++ "." ++ e.object_name) :: decP).map Prod.fst := rfl
      rw [hmap]
      cases hP : Plugin.managedLoop target (importStep Plugin.HELPER imp e).1
          ((aliasNameOf e, e.from_module ++ "." ++ e.object_name) :: decP) rest with
      | error eP =>
        cases hI : InitScript.managedLoop mf (importStep Plugin.HELPER imp e).1
            (((aliasNameOf e, e.from_module ++ "." ++ e.object_name) :: decP).map Prod.fst)
            rest with
        | error eI => simp
        | ok lsI =>
          have hh := (managedLoop_agree rest mf target _ _ hrest lsI).mp hI
          rw [hP] at hh
          exact absurd hh (by simp)
      | ok lsP =>
        have hI := (managedLoop_agree rest mf target _ _ hrest lsP).mpr hP
        rw [hI]

theorem collectManagedGo_agree : ∀ (assoc : List (String × List AliasRec)) (root : List String),
    (∀ p ∈ assoc, ∀ e ∈ p.2, deprecatedTruthy e = false) →
    ∀ m, (InitScript.collectManagedGo root assoc = .ok m ↔
      Plugin.collectManagedGo root assoc = .ok m)
  | [], root, _, m => by simp [InitScript.collectManagedGo, Plugin.collectManagedGo]
  | (target, l) :: assoc, root, hdep, m => by
    have hl : ∀ e ∈ isort aliasLe l, deprecatedTruthy e = false := by
      intro e he
      exact hdep (target, l) (List.mem_cons_self _ _) e ((perm_isort aliasLe l).subset he)
    have hrest : ∀ p ∈ assoc, ∀ e ∈ p.2, deprecatedTruthy e = false :=
      fun p hp => hdep p (List.mem_cons_of_mem _ hp)
    simp only [InitScript.collectManagedGo, Plugin.collectManagedGo]
    by_cases he : l.isEmpty
    · rw [if_pos he]
      have hl0 : l = [] := List.isEmpty_iff.mp he
      subst hl0
      rw [show Plugin.managedLoop target [] [] (isort aliasLe []) = .ok [] from rfl]
      cases hrecP : Plugin.collectManagedGo root assoc with
      | error err =>
        cases hrecI : InitScript.collectManagedGo root assoc with
        | error e2 => simp
        | ok mI =>
          have hP := (collectManagedGo_agree assoc root hrest mI).mp hrecI
          rw [hrecP] at hP
          exact absurd hP (by simp)
      | ok mP =>
        cases hrecI : InitScript.collectManagedGo root assoc with
        | error e2 =>
          have hP := (collectManagedGo_agree assoc root hrest mP).mpr hrecP
          rw [hrecI] at hP
          exact absurd hP (by simp)
        | ok mI =>
          have hP := (collectManagedGo_agree assoc root hrest mI).mp hrecI
          rw [hrecP] at hP
          injection hP with hP
          rw [hP]
          exact Iff.rfl
    · rw [if_neg he]
      cases hP : Plugin.managedLoop target [] [] (isort aliasLe l) with
      | error err =>
        cases hI : InitScript.managedLoop (moduleFile root target) [] []
            (isort aliasLe l) with
        | error e2 => simp
        | ok lsI =>
          have hh := (managedLoop_agree (isort aliasLe l) (moduleFile root target) target
            [] [] hl lsI).mp hI
          rw [hP] at hh
          exact absurd hh (by simp)
      | ok lsP =>
        have hI := (managedLoop_agree (isort aliasLe l) (moduleFile root target) target
          [] [] hl lsP).mpr hP
        simp only [List.map_nil] at hI
        rw [hI]
        cases hrecP : Plugin.collectManagedGo root assoc with
        | error err =>
          cases hrecI : InitScript.collectManagedGo root assoc with
          | error e2 => simp
          | ok mI =>
            have hP2 := (collectManagedGo_agree assoc root hrest mI).mp hrecI
            rw [hrecP] at hP2
            exact absurd hP2 (by simp)
        | ok mP =>
          cases hrecI : InitScript.collectManagedGo root assoc with
          | error e2 =>
            have hP2 := (collectManagedGo_agree assoc root hrest mP).mpr hrecP
            rw [hrecI] at hP2
            exact absurd hP2 (by simp)
          | ok mI =>
            have hP2 := (collectManagedGo_agree assoc root hrest mI).mp hrecI
            rw [hrecP] at hP2
            injection hP2 with hP2
            rw [hP2]
            exact Iff.rfl

/-! ### Small bridges used by the claim theorems -/

/-- Extract the payload of a successful result (for concrete evaluations). -/
def okD {α : Type} (r : Except String α) (d : α) : α :=
  match r with
  | .ok a => a
  | .error _ => d

/-- Extract the message of a failed result (for concrete evaluations). -/
def errD {α : Type} (r : Except String α) : String :=
  match r with
  | .error e => e
  | .ok _ => ""

theorem depOf_eq_none (e : AliasRec) (h : deprecatedTruthy e = false) : depOf e = none := by
  simp [depOf, h]

theorem depOf_eq_some (e : AliasRec) (h : deprecatedTruthy e = true) :
    depOf e = some (sortStrings (e.deprecated_by.getD []), availOf e) := by
  simp [depOf, h]

theorem mem_entriesAt {flat : List (String × AliasRec)} {t : String} {e : AliasRec} :
    e ∈ entriesAt flat t ↔ (t, e) ∈ flat := by
  unfold entriesAt
  rw [List.mem_filterMap]
  constructor
  · rintro ⟨p, hp, hcond⟩
    by_cases h : p.1 = t
    · rw [if_pos h] at hcond
      injection hcond with hcond
      have : p = (t, e) := Prod.ext h hcond
      rw [← this]
      exact hp
    · rw [if_neg h] at hcond
      exact absurd hcond (by simp)
  · intro hp
    exact ⟨(t, e), hp, by simp⟩

theorem except_no_ok_iff {α β : Type} (x : Except α β) :
    (∃ e, x = .error e) ↔ ¬ ∃ v, x = .ok v := by
  cases x <;> simp

/-- Trace an assignment of a generated file back to a collected alias. -/
theorem plugin_collect_managed_assign (root : List String) (tree : List Module)
    {m : List (List String × List Line)} (h : Plugin.collect_managed root tree = .ok m)
    {f : List String} {ls : List Line} (hm : (f, ls) ∈ m)
    {n fm obj : String} {dep : Option (List String × Option String)}
    (ha : Line.assign n fm obj dep ∈ ls) :
    ∃ t e, (t, e) ∈ Plugin.scanFlat tree ∧ f = moduleFile root t ∧
      n = aliasNameOf e ∧ fm = e.from_module ∧ obj = e.object_name ∧ dep = depOf e := by
  obtain ⟨t, l, ls', hassoc, hf, hloop, hls⟩ :=
    (plugin_collectManagedGo_mem (Plugin.collect_aliases tree) root h f ls).mp hm
  rw [hls] at ha
  rcases List.mem_cons.mp ha with ha | ha
  · exact absurd ha (by simp)
  · obtain ⟨e, he, h1, h2, h3, h4⟩ :=
      (plugin_managedLoop_assign_mem (isort aliasLe l) t [] [] hloop n fm obj dep).mp ha
    have he2 : e ∈ l := (perm_isort aliasLe l).subset he
    have he3 : e ∈ entriesAt (Plugin.scanFlat tree) t := by
      obtain ⟨hl, _⟩ := mem_groupAliases.mp hassoc
      rw [← hl]
      exact he2
    exact ⟨t, e, mem_entriesAt.mp he3, hf, h1, h2, h3, h4⟩

/-! ### Claim theorems, fixtures for concrete evaluation -/

def exDec (args : List GArg) : Decorator :=
  { callable_path := some "util.public", value := .call args }

def exMemF : Member :=
  { is_alias := false, decorators := some [exDec [.pos "'pkg.api'"]] }

def exMemG : Member :=
  { is_alias := false, decorators := some [exDec
      [.pos "'pkg.api'", .kw "as_alias" (.str "'G'"),
       .kw "deprecated_by" (.elems [.str "'zz'", .str "'aa'"]),
       .kw "available_until" (.str "'4.0'")]] }

def exTree : List Module :=
  [{ canonical_path := "m", members := [("f", exMemF), ("g", exMemG)] }]

def exManaged : List (List String × List Line) := okD (Plugin.collect_managed [] exTree) []

def exMemDup : Member :=
  { is_alias := false, decorators := some [exDec [.pos "'t'"], exDec [.pos "'t'"]] }

def exTreeDup : List Module :=
  [{ canonical_path := "m", members := [("f", exMemDup)] }]

def exFS : FS := { files := [], dirs := [["out"]] }

def exErr : String := errD (Plugin.collect_managed [] exTreeDup)

def exAlias1 : AliasRec :=
  { paths := ["t"], from_module := "a", object_name := "x",
    as_alias := none, deprecated_by := none, available_until := none }

def exAlias2 : AliasRec :=
  { paths := ["t"], from_module := "b", object_name := "y",
    as_alias := none, deprecated_by := none, available_until := none }

/-! ### C4 -/

/-- C4: deprecation wrapping is optional and exactly follows the metadata.
Every assignment of a generated file comes from a collected alias, and its
deprecation payload is `depOf`: present exactly when `deprecated_by` is a
non-empty set, carrying the sorted entries and the truthy `available_until`.
The rendering of an assignment without payload is the plain reference, and
with payload it is the `deprecated(...)` wrapper with the sorted entries
quoted and `available_until` appended exactly when present. -/
theorem c4_deprecation_wrapping (root : List String) (tree : List Module)
    (m : List (List String × List Line)) (h : Plugin.collect_managed root tree = .ok m) :
    (∀ f ls, (f, ls) ∈ m → ∀ n fm obj dep, Line.assign n fm obj dep ∈ ls →
      ∃ t e, (t, e) ∈ Plugin.scanFlat tree ∧ n = aliasNameOf e ∧ fm = e.from_module ∧
        obj = e.object_name ∧ dep = depOf e) ∧
    (∀ e : AliasRec,
      (deprecatedTruthy e = true →
        depOf e = some (sortStrings (e.deprecated_by.getD []), availOf e)) ∧
      (deprecatedTruthy e = false → depOf e = none)) ∧
    (∀ n fm obj : String, renderLine Plugin.HELPER (Line.assign n fm obj none)
        = n ++ " = " ++ (fm ++ "." ++ obj) ++ "\n") ∧
    (∀ (n fm obj : String) (ds : List String) (au : Option String),
      renderLine Plugin.HELPER (Line.assign n fm obj (some (ds, au)))
        = n ++ " = " ++ ("hopsworks_aliases.deprecated(" ++ quoteJoin ds ++ availStr au
            ++ ")(" ++ fm ++ "." ++ obj ++ ")") ++ "\n") := by
  refine ⟨?_, ?_, ?_, ?_⟩
  · intro f ls hm n fm obj dep ha
    obtain ⟨t, e, hscan, _, h1, h2, h3, h4⟩ :=
      plugin_collect_managed_assign root tree h hm ha
    exact ⟨t, e, hscan, h1, h2, h3, h4⟩
  · intro e
    exact ⟨depOf_eq_some e, depOf_eq_none e⟩
  · intro n fm obj
    rfl
  · intro n fm obj ds au
    rfl

theorem c4_witness :
    Plugin.collect_managed [] exTree = .ok exManaged ∧
    ((∀ f ls, (f, ls) ∈ exManaged → ∀ n fm obj dep, Line.assign n fm obj dep ∈ ls →
      ∃ t e, (t, e) ∈ Plugin.scanFlat exTree ∧ n = aliasNameOf e ∧ fm = e.from_module ∧
        obj = e.object_name ∧ dep = depOf e) ∧
    (∀ e : AliasRec,
      (deprecatedTruthy e = true →
        depOf e = some (sortStrings (e.deprecated_by.getD []), availOf e)) ∧
      (deprecatedTruthy e = false → depOf e = none)) ∧
    (∀ n fm obj : String, renderLine Plugin.HELPER (Line.assign n fm obj none)
        = n ++ " = " ++ (fm ++ "." ++ obj) ++ "\n") ∧
    (∀ (n fm obj : String) (ds : List String) (au : Option String),
      renderLine Plugin.HELPER (Line.assign n fm obj (some (ds, au)))
        = n ++ " = " ++ ("hopsworks_aliases.deprecated(" ++ quoteJoin ds ++ availStr au
            ++ ")(" ++ fm ++ "." ++ obj ++ ")") ++ "\n")) :=
  ⟨rfl, c4_deprecation_wrapping [] exTree exManaged rfl⟩

/-! ### C7 -/

/-- C7: editable-install support.  After `finalize_options` with the `build`
command's `build_temp`, the output directory is the current directory when
`editable_mode` is set and `build_temp / "aliases"` otherwise; `run` generates
the alias files from the current directory into that directory. -/
theorem c7_editable_mode (bt : List String) (c : Plugin.BuildAliasesCmd)
    (tree : List Module) (fs : FS) :
    ((Plugin.finalize_options bt c).aliases_dir
      = some (if c.editable_mode then [] else (c.build_temp.getD bt) ++ ["aliases"])) ∧
    (Plugin.runCmd tree fs (Plugin.finalize_options bt c)
      = some (Plugin.generate_aliases tree []
          (if c.editable_mode then [] else (c.build_temp.getD bt) ++ ["aliases"]) fs)) := by
  constructor
  · rfl
  · rfl

/-! ### C8 -/

/-- C8: duplicate-alias rejection with atomicity.  `collect_managed` fails
exactly when some target's collected aliases resolve to a duplicate alias
name; and when it fails, `generate_aliases` propagates the failure before
touching the file system, so no file is written. -/
theorem c8_duplicate_rejection (tree : List Module) (root : List String) :
    ((∃ err, Plugin.collect_managed root tree = .error err) ↔
      ∃ t l, (t, l) ∈ Plugin.collect_aliases tree ∧ ¬ (l.map aliasNameOf).Nodup) ∧
    (∀ err src dst fs, Plugin.collect_managed src tree = .error err →
      Plugin.generate_aliases tree src dst fs = .error err) := by
  constructor
  · rw [except_no_ok_iff]
    have h1 : (∃ v, Plugin.collect_managed root tree = .ok v)
        ↔ ∀ p ∈ Plugin.collect_aliases tree, ∃ ls,
          Plugin.managedLoop p.1 [] [] (isort aliasLe p.2) = .ok ls :=
      plugin_collectManagedGo_isOk (Plugin.collect_aliases tree) root
    have hiff : (∃ v, Plugin.collect_managed root tree = .ok v)
        ↔ ∀ p ∈ Plugin.collect_aliases tree, (p.2.map aliasNameOf).Nodup := by
      rw [h1]
      constructor
      · intro hall p hp
        have hok := (plugin_managedLoop_isOk (isort aliasLe p.2) p.1 [] []).mp (hall p hp)
        have hperm : ((isort aliasLe p.2).map aliasNameOf).Perm (p.2.map aliasNameOf) :=
          (perm_isort aliasLe p.2).map aliasNameOf
        exact hok.1.perm hperm
      · intro hall p hp
        refine (plugin_managedLoop_isOk (isort aliasLe p.2) p.1 [] []).mpr ⟨?_, ?_⟩
        · have hperm : (p.2.map aliasNameOf).Perm ((isort aliasLe p.2).map aliasNameOf) :=
            ((perm_isort aliasLe p.2).map aliasNameOf).symm
          exact (hall p hp).perm hperm
        · intro n _
          rfl
    rw [hiff]
    constructor
    · intro hnot
      rcases not_forall.mp hnot with ⟨p, hp⟩
      obtain ⟨hmem, hnd⟩ := Classical.not_imp.mp hp
      exact ⟨p.1, p.2, hmem, hnd⟩
    · rintro ⟨t, l, hmem, hnd⟩ hall
      exact hnd (hall (t, l) hmem)
  · intro err src dst fs h
    unfold Plugin.generate_aliases
    rw [h]

theorem c8_witness :
    Plugin.collect_managed [] exTreeDup = .error exErr ∧
    Plugin.generate_aliases exTreeDup [] ["out"] exFS = .error exErr :=
  ⟨rfl, (c8_duplicate_rejection exTreeDup []).2 exErr [] ["out"] exFS rfl⟩

/-! ### C10 -/

/-- C10: import-before-use invariant of generated content.  Every file
produced by the plugin revision's `collect_managed` satisfies the
`goodLines` discipline starting from no imports: each `import M` chunk
appears at most once, and every assignment chunk occurs after the `import`
of its source module, and after the `import` of the deprecation helper when
it carries a deprecation payload, so the generated module executes top to
bottom. -/
theorem c10_import_before_use (root : List String) (tree : List Module)
    (m : List (List String × List Line)) (h : Plugin.collect_managed root tree = .ok m) :
    ∀ f ls, (f, ls) ∈ m → goodLines Plugin.HELPER [] ls := by
  intro f ls hm
  obtain ⟨t, l, ls', _, _, hloop, hls⟩ :=
    (plugin_collectManagedGo_mem (Plugin.collect_aliases tree) root h f ls).mp hm
  rw [hls]
  show goodLines Plugin.HELPER [] ls'
  exact plugin_managedLoop_goodLines _ _ _ _ hloop

theorem c10_witness :
    Plugin.collect_managed [] exTree = .ok exManaged ∧
    (∀ f ls, (f, ls) ∈ exManaged → goodLines Plugin.HELPER [] ls) :=
  ⟨rfl, c10_import_before_use [] exTree exManaged rfl⟩

/-! ### Lemmas: what the scanner emits, characterised by the decorators -/

theorem mem_decoratorAliases {fm nm t : String} {e : AliasRec} {d : Decorator} :
    (t, e) ∈ InitScript.decoratorAliases fm nm d ↔
      (isPublicDec d = true ∧ ∃ md, _parse_public_decorator d = some md ∧
        ¬ md.paths.isEmpty = true ∧ t ∈ md.paths ∧ e = mdToRec fm nm md) := by
  unfold InitScript.decoratorAliases
  by_cases hp : isPublicDec d
  · rw [if_pos hp]
    cases hmd : _parse_public_decorator d with
    | none => simp
    | some md =>
      dsimp only
      by_cases he : md.paths.isEmpty
      · rw [if_pos he]
        constructor
        · intro hx
          exact absurd hx (List.not_mem_nil _)
        · rintro ⟨_, md', hmd', hne, _, _⟩
          injection hmd' with hmd'
          subst hmd'
          exact absurd he hne
      · rw [if_neg he]
        simp only [List.mem_map]
        constructor
        · rintro ⟨t', ht', hte⟩
          injection hte with h1 h2
          exact ⟨hp, md, rfl, he, h1 ▸ ht', h2.symm⟩
        · rintro ⟨_, md', hmd', hne, htm, hee⟩
          injection hmd' with hmd'
          subst hmd'
          exact ⟨t, htm, by rw [hee]⟩
  · rw [if_neg hp]
    simp [hp]

theorem init_scanFlat_mem (tree : List Module) (t : String) (e : AliasRec) :
    (t, e) ∈ InitScript.scanFlat tree ↔
      ∃ mod ∈ tree, ∃ p ∈ mod.members, p.2.is_alias = false ∧
        ∃ ds, p.2.decorators = some ds ∧ ∃ d ∈ ds, isPublicDec d = true ∧
          ∃ md, _parse_public_decorator d = some md ∧ ¬ md.paths.isEmpty = true ∧
            t ∈ md.paths ∧ e = mdToRec mod.canonical_path p.1 md := by
  unfold InitScript.scanFlat InitScript._scan_module_for_public_decorators
  rw [List.mem_flatMap]
  constructor
  · rintro ⟨mod, hmod, hmem⟩
    rw [List.mem_flatMap] at hmem
    obtain ⟨p, hp, hpe⟩ := hmem
    by_cases ha : p.2.is_alias
    · rw [if_pos ha] at hpe
      exact absurd hpe (List.not_mem_nil _)
    · rw [if_neg ha] at hpe
      cases hd : p.2.decorators with
      | none =>
        rw [hd] at hpe
        exact absurd hpe (List.not_mem_nil _)
      | some ds =>
        rw [hd] at hpe
        rw [List.mem_flatMap] at hpe
        obtain ⟨d, hdm, hde⟩ := hpe
        obtain ⟨hpub, md, hmd, hne, htm, he⟩ := mem_decoratorAliases.mp hde
        exact ⟨mod, hmod, p, hp, Bool.not_eq_true _ ▸ ha, ds, hd, d, hdm, hpub,
          md, hmd, hne, htm, he⟩
  · rintro ⟨mod, hmod, p, hp, ha, ds, hd, d, hdm, hpub, md, hmd, hne, htm, he⟩
    refine ⟨mod, hmod, ?_⟩
    rw [List.mem_flatMap]
    refine ⟨p, hp, ?_⟩
    rw [if_neg (by rw [ha]; exact Bool.false_ne_true), hd, List.mem_flatMap]
    exact ⟨d, hdm, mem_decoratorAliases.mpr ⟨hpub, md, hmd, hne, htm, he⟩⟩

/-! ### Lemmas: the full scan, characterised by the decorators -/

theorem mem_decoratorAliasesFull {fm nm t : String} {e : AliasRec} {d : Decorator} :
    (t, e) ∈ decoratorAliasesFull fm nm d ↔
      (isPublicDec d = true ∧ ∃ ps st, parsePublicFull d = some (ps, st) ∧
        ¬ (effTargets ps st).isEmpty = true ∧ t ∈ effTargets ps st ∧
        e = recFull fm nm ps st) := by
  unfold decoratorAliasesFull
  by_cases hp : isPublicDec d
  · rw [if_pos hp]
    cases hmd : parsePublicFull d with
    | none => simp
    | some pst =>
      obtain ⟨ps, st⟩ := pst
      dsimp only
      by_cases he : (effTargets ps st).isEmpty
      · rw [if_pos he]
        constructor
        · intro hx
          exact absurd hx (List.not_mem_nil _)
        · rintro ⟨_, ps', st', hmd', hne, _, _⟩
          injection hmd' with hmd'
          injection hmd' with h1 h2
          subst h1
          subst h2
          exact absurd he hne
      · rw [if_neg he]
        simp only [List.mem_map]
        constructor
        · rintro ⟨t', ht', hte⟩
          injection hte with hh1 hh2
          exact ⟨hp, ps, st, rfl, he, hh1 ▸ ht', hh2.symm⟩
        · rintro ⟨_, ps', st', hmd', hne, htm, hee⟩
          injection hmd' with hmd'
          injection hmd' with h1 h2
          subst h1
          subst h2
          exact ⟨t, htm, by rw [hee]⟩
  · rw [if_neg hp]
    simp [hp]

theorem scanFullFlat_mem (tree : List Module) (t : String) (e : AliasRec) :
    (t, e) ∈ scanFullFlat tree ↔
      ∃ mod ∈ tree, ∃ p ∈ mod.members, p.2.is_alias = false ∧
        ∃ ds, p.2.decorators = some ds ∧ ∃ d ∈ ds, isPublicDec d = true ∧
          ∃ ps st, parsePublicFull d = some (ps, st) ∧
            ¬ (effTargets ps st).isEmpty = true ∧ t ∈ effTargets ps st ∧
            e = recFull mod.canonical_path p.1 ps st := by
  unfold scanFullFlat
  rw [List.mem_flatMap]
  constructor
  · rintro ⟨mod, hmod, hmem⟩
    rw [List.mem_flatMap] at hmem
    obtain ⟨p, hp, hpe⟩ := hmem
    by_cases ha : p.2.is_alias
    · rw [if_pos ha] at hpe
      exact absurd hpe (List.not_mem_nil _)
    · rw [if_neg ha] at hpe
      cases hd : p.2.decorators with
      | none =>
        rw [hd] at hpe
        exact absurd hpe (List.not_mem_nil _)
      | some ds =>
        rw [hd] at hpe
        rw [List.mem_flatMap] at hpe
        obtain ⟨d, hdm, hde⟩ := hpe
        obtain ⟨hpub, ps, st, hmd, hne, htm, he⟩ := mem_decoratorAliasesFull.mp hde
        exact ⟨mod, hmod, p, hp, Bool.not_eq_true _ ▸ ha, ds, hd, d, hdm, hpub,
          ps, st, hmd, hne, htm, he⟩
  · rintro ⟨mod, hmod, p, hp, ha, ds, hd, d, hdm, hpub, ps, st, hmd, hne, htm, he⟩
    refine ⟨mod, hmod, ?_⟩
    rw [List.mem_flatMap]
    refine ⟨p, hp, ?_⟩
    rw [if_neg (by rw [ha]; exact Bool.false_ne_true), hd, List.mem_flatMap]
    exact ⟨d, hdm, mem_decoratorAliasesFull.mpr ⟨hpub, ps, st, hmd, hne, htm, he⟩⟩

/-! ### C1 -/

/-- C1 (amended): under the full kwargs layer — the faithful embedding of the
decorator parse — a symbol is emitted as an alias in the generated
`__init__.py` of target `T` exactly when it carries a `@public` decorator
whose effective paths contain `T`, where the effective paths are the value
of a `paths=` keyword argument when one is stored (through the
`{"paths": paths, **kwargs}` merge; a string value contributes its
characters) and the positional string-literal arguments otherwise; the
assignment binds the alias name (the truthy `as_alias` if given, else the
symbol's own name) to the `from_module.object_name` reference.  The
well-formedness hypotheses delimit the domain on which the embedding is
faithful: every effective target is a well-formed dotted path, so the
target-to-file map is injective as it is in the program, and no decorator
stores a truthy set where the generator consumes a string.  Stated on the
earlier revision, whose scanner is fully in `src/`. -/
theorem c1_amended_public_alias_iff (root : List String) (tree : List Module)
    (m : List (List String × List Line)) (h : collect_managed_full root tree = .ok m)
    (hkw : treeKwWF tree = true)
    (htw : (scanFullFlat tree).all (fun p => targetWF p.1) = true)
    (target n fm obj : String) (dep : Option (List String × Option String)) :
    ((∃ ls, (moduleFile root target, ls) ∈ m ∧ Line.assign n fm obj dep ∈ ls) ↔
      (∃ mod ∈ tree, ∃ p ∈ mod.members, p.2.is_alias = false ∧
        ∃ ds, p.2.decorators = some ds ∧ ∃ d ∈ ds, isPublicDec d = true ∧
          ∃ ps st, parsePublicFull d = some (ps, st) ∧ target ∈ effTargets ps st ∧
            fm = mod.canonical_path ∧ obj = p.1 ∧
            n = aliasNameOf (recFull mod.canonical_path p.1 ps st) ∧
            dep = depOf (recFull mod.canonical_path p.1 ps st))) ∧
    (dep = none → renderLine InitScript.HELPER (Line.assign n fm obj dep)
        = n ++ " = " ++ (fm ++ "." ++ obj) ++ "\n") := by
  constructor
  · constructor
    · rintro ⟨ls, hmem, ha⟩
      obtain ⟨t, l, ht, hf, hrest⟩ :=
        (init_collectManagedGo_mem (collect_aliases_full tree) root h _ ls).mp hmem
      have htt : target = t := moduleFile_injective hf
      subst htt
      rcases hrest with ⟨_, hls⟩ | ⟨ls', hloop, hls⟩
      · rw [hls] at ha
        rcases List.mem_cons.mp ha with ha | ha
        · exact absurd ha (by simp)
        · exact absurd ha (List.not_mem_nil _)
      · rw [hls] at ha
        rcases List.mem_cons.mp ha with ha | ha
        · exact absurd ha (by simp)
        · obtain ⟨e, he, h1, h2, h3, h4⟩ :=
            (init_managedLoop_assign_mem (isort aliasLe l) _ [] [] hloop n fm obj dep).mp ha
          have he2 : e ∈ l := (perm_isort aliasLe l).subset he
          obtain ⟨hl, _⟩ := mem_groupAliases.mp ht
          rw [hl] at he2
          have hflat : (target, e) ∈ scanFullFlat tree := mem_entriesAt.mp he2
          obtain ⟨mod, hmod, p, hp, ha2, ds, hd, d, hdm, hpub, ps, st, hmd, _, htm, hee⟩ :=
            (scanFullFlat_mem tree target e).mp hflat
          subst hee
          exact ⟨mod, hmod, p, hp, ha2, ds, hd, d, hdm, hpub, ps, st, hmd, htm,
            h2, h3, h1, h4⟩
    · rintro ⟨mod, hmod, p, hp, ha2, ds, hd, d, hdm, hpub, ps, st, hmd, htm, h2, h3, h1, h4⟩
      have hne : ¬ (effTargets ps st).isEmpty = true := by
        intro hh
        rw [List.isEmpty_iff.mp hh] at htm
        exact List.not_mem_nil _ htm
      have hflat : (target, recFull mod.canonical_path p.1 ps st) ∈ scanFullFlat tree :=
        (scanFullFlat_mem tree target _).mpr
          ⟨mod, hmod, p, hp, ha2, ds, hd, d, hdm, hpub, ps, st, hmd, hne, htm, rfl⟩
      have hent : recFull mod.canonical_path p.1 ps st
          ∈ entriesAt (scanFullFlat tree) target := mem_entriesAt.mpr hflat
      have hassoc : (target, entriesAt (scanFullFlat tree) target)
          ∈ collect_aliases_full tree :=
        mem_groupAliases.mpr ⟨rfl, List.ne_nil_of_mem hent⟩
      have hok := (init_collectManagedGo_isOk (collect_aliases_full tree) root).mp
        ⟨m, h⟩ _ hassoc
      rcases hok with hnil | ⟨ls', hloop⟩
      · have hnil2 : entriesAt (scanFullFlat tree) target = [] := hnil
        rw [hnil2] at hent
        exact absurd hent (List.not_mem_nil _)
      · have hfile : (moduleFile root target, Line.text InitScript.HEADER :: ls') ∈ m := by
          refine ((init_collectManagedGo_mem (collect_aliases_full tree) root h _ _).mpr
            ⟨target, entriesAt (scanFullFlat tree) target, hassoc, rfl,
              Or.inr ⟨ls', hloop, rfl⟩⟩)
        refine ⟨Line.text InitScript.HEADER :: ls', hfile, ?_⟩
        refine List.mem_cons.mpr (Or.inr ?_)
        refine (init_managedLoop_assign_mem _ _ [] [] hloop n fm obj dep).mpr ?_
        refine ⟨recFull mod.canonical_path p.1 ps st, ?_, h1, h2, h3, h4⟩
        exact (perm_isort aliasLe _).symm.subset hent
  · intro hdep
    rw [hdep]
    rfl

def exDecPathsKw : Decorator := exDec [.kw "paths" (.elems [.str "'u'"])]

def exMemP : Member := { is_alias := false, decorators := some [exDecPathsKw] }

def exTreeP : List Module := [{ canonical_path := "m", members := [("f", exMemP)] }]

/-- C1 counterexample: under the full kwargs layer, the decorator
`@public(paths={"u"})` makes the generator emit the alias `f = m.f` into the
generated file of target `u`, although no decorator lists `u` — or anything —
among its positional path arguments: the `paths` keyword of the
`{"paths": paths, **kwargs}` merge overrides the positional list, refuting
the claimed restriction to positional path arguments. -/
theorem c1_counterexample :
    collect_managed_full [] exTreeP
      = .ok [(moduleFile [] "u",
          [Line.text InitScript.HEADER, Line.importLine "m",
            Line.assign "f" "m" "f" none])] ∧
    (∀ mod ∈ exTreeP, ∀ p ∈ mod.members, ∀ ds, p.2.decorators = some ds →
      ∀ d ∈ ds, posPaths d = []) :=
  ⟨rfl, by decide⟩

theorem c1_witness :
    (collect_managed_full [] exTree = .ok (okD (collect_managed_full [] exTree) []) ∧
      treeKwWF exTree = true ∧
      (scanFullFlat exTree).all (fun p => targetWF p.1) = true) ∧
    ((∃ ls, (moduleFile [] "pkg.api", ls) ∈ okD (collect_managed_full [] exTree) [] ∧
        Line.assign "f" "m" "f" none ∈ ls) ↔
      (∃ mod ∈ exTree, ∃ p ∈ mod.members, p.2.is_alias = false ∧
        ∃ ds, p.2.decorators = some ds ∧ ∃ d ∈ ds, isPublicDec d = true ∧
          ∃ ps st, parsePublicFull d = some (ps, st) ∧ "pkg.api" ∈ effTargets ps st ∧
            "m" = mod.canonical_path ∧ "f" = p.1 ∧
            "f" = aliasNameOf (recFull mod.canonical_path p.1 ps st) ∧
            (none : Option (List String × Option String))
              = depOf (recFull mod.canonical_path p.1 ps st))) ∧
    ((none : Option (List String × Option String)) = none →
      renderLine InitScript.HELPER (Line.assign "f" "m" "f" none)
        = "f" ++ " = " ++ ("m" ++ "." ++ "f") ++ "\n") :=
  ⟨⟨rfl, by decide, by decide⟩,
    c1_amended_public_alias_iff [] exTree (okD (collect_managed_full [] exTree) [])
      rfl (by decide) (by decide) "pkg.api" "f" "m" "f" none⟩

/-! ### Lemmas: the syntactic no-deprecation condition -/

theorem applyKw_noDep_preserved (md : Metadata) (k : String) (v : GVal)
    (ha : argNoDep (.kw k v) = true)
    (hmd : md.deprecated_by = none ∨ md.deprecated_by = some []) :
    (applyKw md k v).deprecated_by = none ∨ (applyKw md k v).deprecated_by = some [] := by
  unfold applyKw
  by_cases h1 : k = "as_alias"
  · rw [if_pos h1]
    cases v <;> exact hmd
  · rw [if_neg h1]
    by_cases h2 : k = "deprecated_by"
    · rw [if_pos h2]
      cases v with
      | str s => exact hmd
      | other => exact hmd
      | elems l =>
        right
        subst h2
        simp only [argNoDep, depKwTruthy, decide_True, Bool.true_and, Bool.not_eq_true',
          Bool.not_eq_false] at ha
        have ha2 : (setElems l).isEmpty = true := by simpa using ha
        simp [List.isEmpty_iff.mp ha2]
    · rw [if_neg h2]
      by_cases h3 : k = "available_until"
      · rw [if_pos h3]
        cases v <;> exact hmd
      · rw [if_neg h3]
        exact hmd

theorem foldl_noDep : ∀ (args : List GArg) (md : Metadata),
    args.all argNoDep = true →
    (md.deprecated_by = none ∨ md.deprecated_by = some []) →
    ((args.foldl (fun md a => match a with | .kw k v => applyKw md k v | _ => md)
        md).deprecated_by = none
      ∨ (args.foldl (fun md a => match a with | .kw k v => applyKw md k v | _ => md)
        md).deprecated_by = some [])
  | [], _, _, hmd => hmd
  | a :: args, md, hall, hmd => by
    rw [List.foldl_cons]
    rw [List.all_cons, Bool.and_eq_true] at hall
    cases a with
    | pos s => exact foldl_noDep args md hall.2 hmd
    | posOther => exact foldl_noDep args md hall.2 hmd
    | kw k v => exact foldl_noDep args _ hall.2 (applyKw_noDep_preserved md k v hall.1 hmd)

/-- Under the syntactic condition the typed parse stores no truthy
`deprecated_by`; the source stores `None`, an empty string or an empty set
on the same decorators, all falsy, so neither revision wraps. -/
theorem parse_noDep {d : Decorator} (hd : decNoDep d = true) {md : Metadata}
    (h : _parse_public_decorator d = some md) :
    md.deprecated_by = none ∨ md.deprecated_by = some [] := by
  cases hv : d.value with
  | other =>
    simp only [_parse_public_decorator, hv] at h
    exact absurd h (by simp)
  | call args =>
    simp only [_parse_public_decorator, hv, Option.some.injEq] at h
    simp only [decNoDep, hv] at hd
    rw [← h]
    exact foldl_noDep args _ hd (Or.inl rfl)

theorem treeNoDep_spec (tree : List Module) (h : treeNoDep tree = true) :
    ∀ p ∈ Plugin.scanFlat tree, deprecatedTruthy p.2 = false := by
  intro p hp
  rw [← scanFlat_eq] at hp
  obtain ⟨t, e⟩ := p
  obtain ⟨mod, hmod, q, hq, _, ds, hds, d, hdm, hpub, md, hmd, _, _, hee⟩ :=
    (init_scanFlat_mem tree t e).mp hp
  have h1 := List.all_eq_true.mp h mod hmod
  have h2 := List.all_eq_true.mp h1 q hq
  rw [hds] at h2
  have h3 := List.all_eq_true.mp h2 d hdm
  rw [hpub] at h3
  have h4 : decNoDep d = true := by simpa using h3
  have h5 := parse_noDep h4 hmd
  rw [hee]
  rcases h5 with h5 | h5 <;> simp [deprecatedTruthy, mdToRec, h5]

/-! ### C2 -/

def c2InitOut : List (List String × String) :=
  okD (InitScript.collect_managed_content [] exTree) []

def c2PluginOut : List (List String × String) :=
  okD (Plugin.collect_managed_content [] exTree) []

/-- C2 counterexample: on a tree with one deprecated alias both revisions
succeed, but the generated contents differ: the earlier revision imports and
calls `hopsworks_common.internal.aliases.deprecated`, the plugin revision
`hopsworks_aliases.deprecated`. -/
theorem c2_counterexample :
    InitScript.collect_managed_content [] exTree = .ok c2InitOut ∧
    Plugin.collect_managed_content [] exTree = .ok c2PluginOut ∧
    c2InitOut ≠ c2PluginOut :=
  ⟨rfl, rfl, by decide⟩

/-- C2 (amended): on every tree in which no `@public` decorator carries a
`deprecated_by` keyword argument with truthy value — a syntactic condition on
the source, under which the generator stores only falsy `deprecated_by`
values and neither revision wraps — the two revisions' `collect_managed`
produce the same mapping from file paths to generated contents (in
particular they succeed together). -/
theorem c2_amended_no_deprecation (root : List String) (tree : List Module)
    (hdep0 : treeNoDep tree = true)
    (mc : List (List String × String)) :
    (InitScript.collect_managed_content root tree = .ok mc ↔
      Plugin.collect_managed_content root tree = .ok mc) := by
  have hdep : ∀ p ∈ Plugin.scanFlat tree, deprecatedTruthy p.2 = false :=
    treeNoDep_spec tree hdep0
  unfold InitScript.collect_managed_content Plugin.collect_managed_content
  have hdep2 : ∀ p ∈ Plugin.collect_aliases tree, ∀ e ∈ p.2, deprecatedTruthy e = false := by
    intro p hp e he
    obtain ⟨hl, _⟩ := mem_groupAliases.mp (show (p.1, p.2) ∈ _ from hp)
    rw [hl] at he
    exact hdep _ (mem_entriesAt.mp he)
  have hgo := collectManagedGo_agree (Plugin.collect_aliases tree) root hdep2
  cases hP : Plugin.collect_managed root tree with
  | error e =>
    cases hI : InitScript.collect_managed root tree with
    | error eI => simp [Except.map]
    | ok mI =>
      exfalso
      have h2 : InitScript.collectManagedGo root (Plugin.collect_aliases tree) = .ok mI := by
        rw [← collect_aliases_eq]
        exact hI
      have h3 : Plugin.collect_managed root tree = .ok mI := (hgo mI).mp h2
      rw [hP] at h3
      exact absurd h3 (by simp)
  | ok mP =>
    have hI : InitScript.collect_managed root tree = .ok mP := by
      unfold InitScript.collect_managed
      rw [collect_aliases_eq]
      exact (hgo mP).mpr hP
    rw [hI]
    have hmaps : mP.map (fun fl => (fl.1, renderContent InitScript.HELPER fl.2))
        = mP.map (fun fl => (fl.1, renderContent Plugin.HELPER fl.2)) := by
      apply List.map_congr_left
      intro fl hfl
      congr 1
      apply renderContent_agree
      intro n fm obj dd hmm
      obtain ⟨t, e, hscan, _, _, _, _, hdd⟩ :=
        plugin_collect_managed_assign root tree hP (show (fl.1, fl.2) ∈ mP from hfl) hmm
      rw [hdd]
      exact depOf_eq_none e (hdep (t, e) hscan)
    simp only [Except.map]
    rw [hmaps]

def exTreeND : List Module :=
  [{ canonical_path := "m", members := [("f", exMemF)] }]

theorem c2_witness :
    treeNoDep exTreeND = true ∧
    (InitScript.collect_managed_content [] exTreeND
        = .ok (okD (Plugin.collect_managed_content [] exTreeND) []) ↔
      Plugin.collect_managed_content [] exTreeND
        = .ok (okD (Plugin.collect_managed_content [] exTreeND) [])) :=
  ⟨by decide, c2_amended_no_deprecation [] exTreeND (by decide)
    (okD (Plugin.collect_managed_content [] exTreeND) [])⟩

/-! ### Lemmas: stable-sort canonicity without key distinctness

Aliases with equal `(from_module, object_name)` sort keys can occur (one
member carrying several `@public` decorators for the same target); the stable
sort keeps them in emission order, and all of them originate from the one
module whose canonical path is the shared `from_module`, so permuting the
scanned module list leaves each per-key subsequence — and hence the sorted
list — unchanged. -/

theorem plugin_discoverGo_eq : ∀ files : List (List String × String),
    Plugin.discoverGo files =
      ((files.filter (fun pc => isPyName pc.1 && !pc.1.any Plugin.skipPart &&
          !(lastComp pc.1 == "__init__.py"
            && strStartsWith pc.2 Plugin.MAGIC_COMMENT))).map Prod.fst,
        files.filter (fun pc => !(isPyName pc.1 && !pc.1.any Plugin.skipPart &&
          (lastComp pc.1 == "__init__.py" && strStartsWith pc.2 Plugin.MAGIC_COMMENT))))
  | [] => rfl
  | (p, c) :: files => by
    have ih := plugin_discoverGo_eq files
    by_cases c1 : isPyName p = true
    · by_cases c2 : p.any Plugin.skipPart = true
      · rw [show Plugin.discoverGo ((p, c) :: files)
            = ((Plugin.discoverGo files).1, (p, c) :: (Plugin.discoverGo files).2) from by
              simp [Plugin.discoverGo, c1, c2], ih]
        rw [List.filter_cons_of_neg (by simp [c2]), List.filter_cons_of_pos (by simp [c2])]
      · have hsk : p.any Plugin.skipPart = false := Bool.not_eq_true _ ▸ c2
        by_cases c3 : (lastComp p == "__init__.py"
            && strStartsWith c Plugin.MAGIC_COMMENT) = true
        · rw [Bool.and_eq_true] at c3
          obtain ⟨c3a, c3b⟩ := c3
          rw [show Plugin.discoverGo ((p, c) :: files)
              = ((Plugin.discoverGo files).1, (Plugin.discoverGo files).2) from by
                simp [Plugin.discoverGo, c1, hsk, c3a, c3b], ih]
          rw [List.filter_cons_of_neg (by simp [c3a, c3b]),
            List.filter_cons_of_neg (by simp [c1, hsk, c3a, c3b])]
        · have c3f : (lastComp p == "__init__.py"
              && strStartsWith c Plugin.MAGIC_COMMENT) = false := Bool.not_eq_true _ ▸ c3
          rw [show Plugin.discoverGo ((p, c) :: files)
              = (p :: (Plugin.discoverGo files).1, (p, c) :: (Plugin.discoverGo files).2)
              from by simp [Plugin.discoverGo, c1, hsk, c3f], ih]
          rw [List.filter_cons_of_pos (by simp [c1, hsk, c3f]),
            List.filter_cons_of_pos (by simp [c1, hsk, c3f]), List.map_cons]
    · have hpy : isPyName p = false := Bool.not_eq_true _ ▸ c1
      rw [show Plugin.discoverGo ((p, c) :: files)
          = ((Plugin.discoverGo files).1, (p, c) :: (Plugin.discoverGo files).2) from by
            simp [Plugin.discoverGo, hpy], ih]
      rw [List.filter_cons_of_neg (by simp [hpy]), List.filter_cons_of_pos (by simp [hpy])]

theorem nodup_fst_eq {α β : Type} : ∀ {l : List (α × β)}, (l.map Prod.fst).Nodup →
    ∀ {a : α} {b₁ b₂ : β}, (a, b₁) ∈ l → (a, b₂) ∈ l → b₁ = b₂
  | [], _, _, _, _, h1, _ => absurd h1 (List.not_mem_nil _)
  | (x, y) :: l, hnd, a, b₁, b₂, h1, h2 => by
    simp only [List.map_cons, List.nodup_cons] at hnd
    obtain ⟨hx, hnd⟩ := hnd
    rcases List.mem_cons.mp h1 with h1 | h1 <;> rcases List.mem_cons.mp h2 with h2 | h2
    · injection h1 with _ e1
      injection h2 with _ e2
      rw [e1, e2]
    · injection h1 with e0 e1
      rw [← e0] at hx
      exact absurd (List.mem_map.mpr ⟨(a, b₂), h2, rfl⟩) hx
    · injection h2 with e0 e2
      rw [← e0] at hx
      exact absurd (List.mem_map.mpr ⟨(a, b₁), h1, rfl⟩) hx
    · exact nodup_fst_eq hnd h1 h2

theorem skipPart_false_iff (s : String) : Plugin.skipPart s = false ↔
    (strStartsWith s "." = false ∧ s ≠ "__pycache__" ∧ s ≠ "build" ∧ s ≠ "dist" ∧
      s ≠ "venv") := by
  unfold Plugin.skipPart
  simp [Bool.or_eq_false_iff]
  tauto

theorem init_skipPart_false_iff (s : String) : InitScript.skipPart s = false ↔
    (strStartsWith s "." = false ∧ s ≠ "__pycache__" ∧ s ≠ "build" ∧ s ≠ "dist" ∧
      s ≠ "venv" ∧ s ≠ ".venv") := by
  unfold InitScript.skipPart
  simp [Bool.or_eq_false_iff]
  tauto

/-! ### C9 -/

/-- C9: discovery filter invariant.  In both revisions every discovered path
matches `*.py` and has no component that starts with a dot or equals
`__pycache__`, `build`, `dist`, or `venv`; such files are never scanned. -/
theorem c9_discovery_filter (fs : FS) (files : List (List String × String)) :
    (∀ p ∈ (Plugin._discover_python_modules fs).1,
      strEndsWith (lastComp p) ".py" = true ∧
      ∀ s ∈ p, strStartsWith s "." = false ∧ s ≠ "__pycache__" ∧ s ≠ "build" ∧
        s ≠ "dist" ∧ s ≠ "venv") ∧
    (∀ p ∈ InitScript._discover_python_modules files,
      strEndsWith (lastComp p) ".py" = true ∧
      ∀ s ∈ p, strStartsWith s "." = false ∧ s ≠ "__pycache__" ∧ s ≠ "build" ∧
        s ≠ "dist" ∧ s ≠ "venv") := by
  constructor
  · intro p hp
    have hq : (Plugin._discover_python_modules fs).1
        = (fs.files.filter (fun pc => isPyName pc.1 && !pc.1.any Plugin.skipPart &&
            !(lastComp pc.1 == "__init__.py"
              && strStartsWith pc.2 Plugin.MAGIC_COMMENT))).map Prod.fst := by
      unfold Plugin._discover_python_modules
      rw [plugin_discoverGo_eq]
    rw [hq] at hp
    obtain ⟨pc, hpc, hfst⟩ := List.mem_map.mp hp
    have hpred := (List.mem_filter.mp hpc).2
    rw [Bool.and_eq_true, Bool.and_eq_true] at hpred
    obtain ⟨⟨hpy, hskip⟩, _⟩ := hpred
    rw [← hfst]
    refine ⟨hpy, ?_⟩
    intro s hs
    rw [Bool.not_eq_true', List.any_eq_false] at hskip
    exact (skipPart_false_iff s).mp (Bool.not_eq_true _ ▸ hskip s hs)
  · intro p hp
    obtain ⟨pc, hpc, hfst⟩ := List.mem_map.mp hp
    have hpred := (List.mem_filter.mp hpc).2
    rw [Bool.and_eq_true] at hpred
    obtain ⟨hpy, hskip⟩ := hpred
    rw [← hfst]
    refine ⟨hpy, ?_⟩
    intro s hs
    rw [Bool.not_eq_true', List.any_eq_false] at hskip
    obtain ⟨h1, h2, h3, h4, h5, _⟩ :=
      (init_skipPart_false_iff s).mp (Bool.not_eq_true _ ▸ hskip s hs)
    exact ⟨h1, h2, h3, h4, h5⟩

/-! ### C5 -/

/-- C5: generated files are fully owned by the generator.  Every file content
produced by the plugin revision's `collect_managed` begins with the magic
comment; and during discovery the plugin unlinks every passing `__init__.py`
whose content starts with the magic comment: the remaining file system is
exactly the other files, and (for a file system with unique paths) such a
file is removed and never discovered as source. -/
theorem c5_generator_owns_output (root : List String) (tree : List Module)
    (m : List (List String × List Line)) (h : Plugin.collect_managed root tree = .ok m)
    (fs : FS) :
    (∀ f ls, (f, ls) ∈ m → ∃ rest,
      renderContent Plugin.HELPER ls = Plugin.MAGIC_COMMENT ++ rest) ∧
    ((Plugin._discover_python_modules fs).2.files = fs.files.filter (fun pc =>
      !(isPyName pc.1 && !pc.1.any Plugin.skipPart &&
        (lastComp pc.1 == "__init__.py" && strStartsWith pc.2 Plugin.MAGIC_COMMENT)))) ∧
    (∀ p c, (fs.files.map Prod.fst).Nodup → (p, c) ∈ fs.files →
      isPyName p = true → p.any Plugin.skipPart = false → lastComp p = "__init__.py" →
      strStartsWith c Plugin.MAGIC_COMMENT = true →
      ((p, c) ∉ (Plugin._discover_python_modules fs).2.files ∧
        p ∉ (Plugin._discover_python_modules fs).1)) := by
  have hdisc := plugin_discoverGo_eq fs.files
  have hd1 : (Plugin._discover_python_modules fs).1 = (Plugin.discoverGo fs.files).1 := rfl
  have hd2 : (Plugin._discover_python_modules fs).2.files
      = (Plugin.discoverGo fs.files).2 := rfl
  refine ⟨?_, ?_, ?_⟩
  · intro f ls hm
    obtain ⟨t, l, ls', _, _, _, hls⟩ :=
      (plugin_collectManagedGo_mem (Plugin.collect_aliases tree) root h f ls).mp hm
    rw [hls, renderContent_cons]
    exact ⟨renderContent Plugin.HELPER ls', rfl⟩
  · rw [hd2, hdisc]
  · intro p c hnd hmem hpy hskip hinit hmagic
    have ha : (lastComp p == "__init__.py") = true := beq_iff_eq.mpr hinit
    constructor
    · rw [hd2, hdisc]
      intro hk
      have hpred := (List.mem_filter.mp hk).2
      rw [Bool.not_eq_true', Bool.and_eq_false_iff, Bool.and_eq_false_iff] at hpred
      rcases hpred with (hh | hh) | hh
      · rw [hpy] at hh
        exact absurd hh (by simp)
      · rw [hskip] at hh
        exact absurd hh (by simp)
      · rw [Bool.and_eq_false_iff] at hh
        rcases hh with hh | hh
        · rw [ha] at hh
          exact absurd hh (by simp)
        · rw [hmagic] at hh
          exact absurd hh (by simp)
    · rw [hd1, hdisc]
      intro hdm
      obtain ⟨pc', hpc', hfst⟩ := List.mem_map.mp hdm
      have hpcfiles : pc' ∈ fs.files := (List.mem_filter.mp hpc').1
      have hpred := (List.mem_filter.mp hpc').2
      have hsnd : pc'.2 = c := by
        have h1 : (p, pc'.2) ∈ fs.files := by
          rw [← hfst]
          exact hpcfiles
        exact nodup_fst_eq hnd h1 hmem
      have hpc2 : pc' = (p, c) := by
        rw [show pc' = (pc'.1, pc'.2) from rfl, hfst, hsnd]
      rw [hpc2] at hpred
      rw [Bool.and_eq_true, Bool.and_eq_true] at hpred
      obtain ⟨_, hnot⟩ := hpred
      rw [Bool.not_eq_true'] at hnot
      rw [Bool.and_eq_false_iff] at hnot
      rcases hnot with hh | hh
      · rw [ha] at hh
        exact absurd hh (by simp)
      · rw [hmagic] at hh
        exact absurd hh (by simp)

def exFS2 : FS :=
  { files := [(["pkg", "__init__.py"], Plugin.MAGIC_COMMENT ++ "x = 1\n"),
      (["pkg", "a.py"], "code")],
    dirs := [["pkg"]] }

theorem c5_witness :
    Plugin.collect_managed [] exTree = .ok exManaged ∧
    ((∀ f ls, (f, ls) ∈ exManaged → ∃ rest,
      renderContent Plugin.HELPER ls = Plugin.MAGIC_COMMENT ++ rest) ∧
    ((Plugin._discover_python_modules exFS2).2.files = exFS2.files.filter (fun pc =>
      !(isPyName pc.1 && !pc.1.any Plugin.skipPart &&
        (lastComp pc.1 == "__init__.py" && strStartsWith pc.2 Plugin.MAGIC_COMMENT)))) ∧
    (∀ p c, (exFS2.files.map Prod.fst).Nodup → (p, c) ∈ exFS2.files →
      isPyName p = true → p.any Plugin.skipPart = false → lastComp p = "__init__.py" →
      strStartsWith c Plugin.MAGIC_COMMENT = true →
      ((p, c) ∉ (Plugin._discover_python_modules exFS2).2.files ∧
        p ∉ (Plugin._discover_python_modules exFS2).1))) :=
  ⟨rfl, c5_generator_owns_output [] exTree exManaged rfl exFS2⟩

/-! ### Lemmas: file-system steps of generate_aliases -/

theorem getLastD_ne_nil {l : List String} (h : l ≠ []) (d₁ d₂ : String) :
    l.getLastD d₁ = l.getLastD d₂ := by
  cases l with
  | nil => exact absurd rfl h
  | cons a t =>
    show ((a :: t).getLast?).getD d₁ = ((a :: t).getLast?).getD d₂
    cases hg : (a :: t).getLast? with
    | some x => rfl
    | none => simp at hg

theorem lastComp_concat (l : List String) (a : String) : lastComp (l ++ [a]) = a := by
  simp [lastComp]

theorem lastComp_append_right : ∀ (l : List String) {r : List String}, r ≠ [] →
    lastComp (l ++ r) = lastComp r
  | [], _, _ => rfl
  | a :: l, r, h => by
    have hne : l ++ r ≠ [] := fun hh => h (List.append_eq_nil.mp hh).2
    show (a :: (l ++ r)).getLastD "" = lastComp r
    rw [List.getLastD_cons, getLastD_ne_nil hne a ""]
    exact lastComp_append_right l h

theorem lookupFile_append : ∀ (l₁ l₂ : List (List String × String)) (q : List String),
    lookupFile (l₁ ++ l₂) q =
      match lookupFile l₁ q with
      | some c => some c
      | none => lookupFile l₂ q
  | [], l₂, q => rfl
  | e :: l₁, l₂, q => by
    show (if e.1 == q then some e.2 else lookupFile (l₁ ++ l₂) q) = _
    by_cases h : (e.1 == q) = true
    · rw [if_pos h, show lookupFile (e :: l₁) q = some e.2 from by
        show (if e.1 == q then some e.2 else lookupFile l₁ q) = _
        rw [if_pos h]]
    · rw [if_neg h, lookupFile_append l₁ l₂ q, show lookupFile (e :: l₁) q
        = lookupFile l₁ q from by
          show (if e.1 == q then some e.2 else lookupFile l₁ q) = _
          rw [if_neg h]]

theorem lookupFile_eq_none_of_not_any :
    ∀ {files : List (List String × String)} {q : List String},
    files.any (fun f => f.1 == q) = false → lookupFile files q = none
  | [], q, _ => rfl
  | e :: files, q, h => by
    rw [List.any_cons, Bool.or_eq_false_iff] at h
    show (if e.1 == q then some e.2 else lookupFile files q) = none
    rw [if_neg (by rw [h.1]; exact Bool.false_ne_true), lookupFile_eq_none_of_not_any h.2]

theorem lookupFile_touchFile_ne (files : List (List String × String)) (p q : List String)
    (h : ¬ q = p) : lookupFile (touchFile files p) q = lookupFile files q := by
  unfold touchFile
  by_cases ha : files.any (fun f => f.1 == p) = true
  · rw [if_pos ha]
  · rw [if_neg ha, lookupFile_append]
    cases hl : lookupFile files q with
    | some c => rfl
    | none =>
      show lookupFile [(p, "")] q = none
      show (if p == q then some "" else none) = none
      rw [if_neg (by rw [beq_iff_eq]; exact fun hh => h hh.symm)]

theorem lookupFile_map_replace (p : List String) (c : String) (q : List String)
    (h : ¬ q = p) : ∀ files : List (List String × String),
    lookupFile (files.map (fun f => if f.1 == p then (p, c) else f)) q
      = lookupFile files q
  | [] => rfl
  | e :: files => by
    rw [List.map_cons]
    by_cases he : (e.1 == p) = true
    · rw [if_pos he]
      show (if p == q then some c else _) = _
      rw [if_neg (by rw [beq_iff_eq]; exact fun hh => h hh.symm),
        lookupFile_map_replace p c q h files]
      have hep : e.1 = p := beq_iff_eq.mp he
      show _ = (if e.1 == q then some e.2 else lookupFile files q)
      rw [if_neg (by rw [beq_iff_eq, hep]; exact fun hh => h hh.symm)]
    · rw [if_neg he]
      show (if e.1 == q then some e.2 else _) = (if e.1 == q then some e.2 else _)
      by_cases hq : (e.1 == q) = true
      · rw [if_pos hq, if_pos hq]
      · rw [if_neg hq, if_neg hq, lookupFile_map_replace p c q h files]

theorem lookupFile_writeFile_ne (files : List (List String × String)) (p : List String)
    (c : String) (q : List String) (h : ¬ q = p) :
    lookupFile (writeFile files p c) q = lookupFile files q := by
  unfold writeFile
  by_cases ha : files.any (fun f => f.1 == p) = true
  · rw [if_pos ha]
    exact lookupFile_map_replace p c q h files
  · rw [if_neg ha, lookupFile_append]
    cases hl : lookupFile files q with
    | some cc => rfl
    | none =>
      show lookupFile [(p, c)] q = none
      show (if p == q then some c else none) = none
      rw [if_neg (by rw [beq_iff_eq]; exact fun hh => h hh.symm)]

theorem lookupFile_map_replace_self (p : List String) (c : String) :
    ∀ files : List (List String × String), files.any (fun f => f.1 == p) = true →
    lookupFile (files.map (fun f => if f.1 == p then (p, c) else f)) p = some c
  | [], ha => by simp at ha
  | e :: files, ha => by
    rw [List.map_cons]
    by_cases he : (e.1 == p) = true
    · rw [if_pos he]
      show (if p == p then some c else _) = some c
      rw [if_pos (beq_iff_eq.mpr rfl)]
    · rw [if_neg he]
      rw [List.any_cons] at ha
      have ha2 : files.any (fun f => f.1 == p) = true := by
        rcases Bool.or_eq_true_iff.mp ha with hh | hh
        · exact absurd hh he
        · exact hh
      show (if e.1 == p then some e.2 else _) = some c
      rw [if_neg he, lookupFile_map_replace_self p c files ha2]

theorem lookupFile_writeFile_self (files : List (List String × String)) (p : List String)
    (c : String) : lookupFile (writeFile files p c) p = some c := by
  unfold writeFile
  by_cases ha : files.any (fun f => f.1 == p) = true
  · rw [if_pos ha]
    exact lookupFile_map_replace_self p c files ha
  · rw [if_neg ha, lookupFile_append,
      lookupFile_eq_none_of_not_any (Bool.not_eq_true _ ▸ ha)]
    show lookupFile [(p, c)] p = some c
    show (if p == p then some c else none) = some c
    rw [if_pos (beq_iff_eq.mpr rfl)]

theorem dirExistsB_false {dirs : List (List String)} {d : List String}
    (h : dirExistsB dirs d = false) : d ∉ dirs ∧ d ≠ [] := by
  unfold dirExistsB at h
  rw [Bool.or_eq_false_iff] at h
  obtain ⟨h1, h2⟩ := h
  constructor
  · intro hm
    have h4 := List.elem_iff.mpr hm
    have h5 : dirs.elem d = false := h2
    rw [h4] at h5
    exact absurd h5 (by simp)
  · intro hn
    rw [hn] at h1
    simp at h1

theorem missingUpFuel_mem (dirs : List (List String)) : ∀ (fuel : Nat) (p : List String),
    ∀ d ∈ Plugin.missingUpFuel dirs fuel p, dirExistsB dirs d = false
  | 0, p, d, h => absurd h (List.not_mem_nil _)
  | fuel + 1, p, d, h => by
    simp only [Plugin.missingUpFuel] at h
    by_cases he : dirExistsB dirs p = true
    · rw [if_pos he] at h
      exact absurd h (List.not_mem_nil _)
    · rw [if_neg he] at h
      rcases List.mem_cons.mp h with h | h
      · rw [h]
        exact Bool.not_eq_true _ ▸ he
      · exact missingUpFuel_mem dirs fuel p.dropLast d h

theorem missingUpFuel_len (dirs : List (List String)) : ∀ (fuel : Nat) (p : List String),
    ∀ d ∈ Plugin.missingUpFuel dirs fuel p, d.length ≤ p.length
  | 0, p, d, h => absurd h (List.not_mem_nil _)
  | fuel + 1, p, d, h => by
    simp only [Plugin.missingUpFuel] at h
    by_cases he : dirExistsB dirs p = true
    · rw [if_pos he] at h
      exact absurd h (List.not_mem_nil _)
    · rw [if_neg he] at h
      rcases List.mem_cons.mp h with h | h
      · rw [h]
      · have h1 := missingUpFuel_len dirs fuel p.dropLast d h
        rw [List.length_dropLast] at h1
        omega

theorem missingUpFuel_nodup (dirs : List (List String)) : ∀ (fuel : Nat) (p : List String),
    (Plugin.missingUpFuel dirs fuel p).Nodup
  | 0, _ => List.nodup_nil
  | fuel + 1, p => by
    simp only [Plugin.missingUpFuel]
    by_cases he : dirExistsB dirs p = true
    · simp [he]
    · rw [if_neg he]
      refine List.nodup_cons.mpr ⟨?_, missingUpFuel_nodup dirs fuel p.dropLast⟩
      intro hmem
      have hlen := missingUpFuel_len dirs fuel p.dropLast p hmem
      rw [List.length_dropLast] at hlen
      have hne : p ≠ [] := (dirExistsB_false (Bool.not_eq_true _ ▸ he)).2
      have hpos : 0 < p.length := List.length_pos.mpr hne
      omega

theorem createDirs_spec (dst : List String) : ∀ (ds : List (List String)) (fs : FS)
    (entries : List String),
    ∃ files',
      Plugin.createDirs dst (fs, entries) ds =
        ({ dirs := fs.dirs ++ ds, files := files' },
          entries ++ (ds.filter (fun d => dst.isPrefixOf d)).map
            (fun d => "/" ++ pathStr (d.drop dst.length))) ∧
      ∀ q, lastComp q ≠ "__init__.py" → lookupFile files' q = lookupFile fs.files q
  | [], fs, entries => ⟨fs.files, by simp [Plugin.createDirs], fun q _ => rfl⟩
  | d :: ds, fs, entries => by
    obtain ⟨files', heq, hpres⟩ := createDirs_spec dst ds
      { dirs := fs.dirs ++ [d], files := touchFile fs.files (d ++ ["__init__.py"]) }
      (entries ++ (if dst.isPrefixOf d then ["/" ++ pathStr (d.drop dst.length)] else []))
    have hstep : Plugin.createDirs dst (fs, entries) (d :: ds)
        = Plugin.createDirs dst
          ({ dirs := fs.dirs ++ [d], files := touchFile fs.files (d ++ ["__init__.py"]) },
            entries ++ (if dst.isPrefixOf d then ["/" ++ pathStr (d.drop dst.length)] else []))
          ds := by
      simp only [Plugin.createDirs, relTo]
      by_cases hpre : dst.isPrefixOf d = true
      · simp [hpre]
      · simp [hpre]
    refine ⟨files', ?_, ?_⟩
    · rw [hstep, heq]
      have hdirs : (fs.dirs ++ [d]) ++ ds = fs.dirs ++ (d :: ds) := by simp
      have hent : (entries ++ (if dst.isPrefixOf d
            then ["/" ++ pathStr (d.drop dst.length)] else []))
          ++ (ds.filter (fun d => dst.isPrefixOf d)).map
            (fun d => "/" ++ pathStr (d.drop dst.length))
          = entries ++ ((d :: ds).filter (fun d => dst.isPrefixOf d)).map
            (fun d => "/" ++ pathStr (d.drop dst.length)) := by
        by_cases hpre : dst.isPrefixOf d = true
        · rw [List.filter_cons_of_pos hpre, if_pos hpre, List.map_cons]
          simp
        · rw [List.filter_cons_of_neg hpre, if_neg hpre]
          simp
      rw [hdirs, hent]
    · intro q hq
      rw [hpres q hq]
      exact lookupFile_touchFile_ne _ _ _
        (fun hqq => hq (by rw [hqq, lastComp_concat]))

theorem processManaged_spec (src dst : List String) :
    ∀ (managed : List (List String × List Line)) (fs : FS) (entries : List String),
    (∀ fp c, (fp, c) ∈ managed → ∃ r, relTo src fp = some r ∧ r ≠ [] ∧
      lastComp r = "__init__.py") →
    ∃ created files',
      Plugin.processManaged src dst (fs, entries) managed =
        .ok ({ dirs := fs.dirs ++ created, files := files' },
          entries ++ (created.filter (fun d => dst.isPrefixOf d)).map
            (fun d => "/" ++ pathStr (d.drop dst.length))) ∧
      created.Nodup ∧ (∀ d ∈ created, d ∉ fs.dirs ∧ d ≠ []) ∧
      (∀ q, lastComp q ≠ "__init__.py" → lookupFile files' q = lookupFile fs.files q)
  | [], fs, entries, _ =>
    ⟨[], fs.files, by simp [Plugin.processManaged], List.nodup_nil,
      by simp, fun q _ => rfl⟩
  | (fp, ls) :: rest, fs, entries, h => by
    obtain ⟨r, hr, hrne, hrlast⟩ := h fp ls (List.mem_cons_self _ _)
    obtain ⟨files₁, heq₁, hpres₁⟩ := createDirs_spec dst
      ((Plugin.missingUp fs.dirs ((dst ++ r).dropLast)).reverse) fs entries
    obtain ⟨created₂, files₂, heq₂, hnd₂, hnotin₂, hpres₂⟩ :=
      processManaged_spec src dst rest
        ⟨writeFile files₁ (dst ++ r) (renderContent Plugin.HELPER ls),
          fs.dirs ++ (Plugin.missingUp fs.dirs ((dst ++ r).dropLast)).reverse⟩
        (entries ++ (((Plugin.missingUp fs.dirs ((dst ++ r).dropLast)).reverse).filter
            (fun d => dst.isPrefixOf d)).map (fun d => "/" ++ pathStr (d.drop dst.length)))
        (fun fp' c' hm => h fp' c' (List.mem_cons_of_mem _ hm))
    have heq₂' : Plugin.processManaged src dst
        (⟨writeFile files₁ (dst ++ r) (renderContent Plugin.HELPER ls),
          fs.dirs ++ (Plugin.missingUp fs.dirs ((dst ++ r).dropLast)).reverse⟩,
          entries ++ (((Plugin.missingUp fs.dirs ((dst ++ r).dropLast)).reverse).filter
            (fun d => dst.isPrefixOf d)).map (fun d => "/" ++ pathStr (d.drop dst.length)))
        rest
      = .ok (⟨files₂,
          (fs.dirs ++ (Plugin.missingUp fs.dirs ((dst ++ r).dropLast)).reverse) ++ created₂⟩,
          (entries ++ (((Plugin.missingUp fs.dirs ((dst ++ r).dropLast)).reverse).filter
            (fun d => dst.isPrefixOf d)).map (fun d => "/" ++ pathStr (d.drop dst.length)))
          ++ (created₂.filter (fun d => dst.isPrefixOf d)).map
            (fun d => "/" ++ pathStr (d.drop dst.length))) := heq₂
    have hnotin₂' : ∀ d ∈ created₂,
        d ∉ fs.dirs ++ (Plugin.missingUp fs.dirs ((dst ++ r).dropLast)).reverse ∧ d ≠ [] :=
      hnotin₂
    have hpres₂' : ∀ q, lastComp q ≠ "__init__.py" → lookupFile files₂ q
        = lookupFile (writeFile files₁ (dst ++ r) (renderContent Plugin.HELPER ls)) q :=
      hpres₂
    have hstep : Plugin.processManaged src dst (fs, entries) ((fp, ls) :: rest)
        = Plugin.processManaged src dst
          (⟨writeFile files₁ (dst ++ r) (renderContent Plugin.HELPER ls),
            fs.dirs ++ (Plugin.missingUp fs.dirs ((dst ++ r).dropLast)).reverse⟩,
            entries ++ (((Plugin.missingUp fs.dirs ((dst ++ r).dropLast)).reverse).filter
              (fun d => dst.isPrefixOf d)).map
                (fun d => "/" ++ pathStr (d.drop dst.length))) rest := by
      simp only [Plugin.processManaged, hr]
      rw [heq₁]
    have hlastfp : lastComp (dst ++ r) = "__init__.py" := by
      rw [lastComp_append_right dst hrne, hrlast]
    have hmem₁ : ∀ d ∈ (Plugin.missingUp fs.dirs ((dst ++ r).dropLast)).reverse,
        d ∉ fs.dirs ∧ d ≠ [] := by
      intro d hd
      rw [List.mem_reverse] at hd
      exact dirExistsB_false (missingUpFuel_mem fs.dirs _ _ d hd)
    refine ⟨(Plugin.missingUp fs.dirs ((dst ++ r).dropLast)).reverse ++ created₂,
      files₂, ?_, ?_, ?_, ?_⟩
    · rw [hstep, heq₂']
      rw [List.filter_append, List.map_append, List.append_assoc, List.append_assoc]
    · rw [List.nodup_append]
      refine ⟨?_, hnd₂, ?_⟩
      · rw [List.nodup_reverse]
        exact missingUpFuel_nodup fs.dirs _ _
      · intro a ha hac
        exact (hnotin₂' a hac).1 (List.mem_append.mpr (Or.inr ha))
    · intro d hd
      rcases List.mem_append.mp hd with hd | hd
      · exact hmem₁ d hd
      · have h2 := hnotin₂' d hd
        exact ⟨fun hm => h2.1 (List.mem_append.mpr (Or.inl hm)), h2.2⟩
    · intro q hq
      rw [hpres₂' q hq,
        lookupFile_writeFile_ne _ _ _ _ (fun hqq => hq (by rw [hqq, hlastfp])),
        hpres₁ q hq]

theorem isPrefixOf_append_self {α : Type} [BEq α] [LawfulBEq α] :
    ∀ (l r : List α), l.isPrefixOf (l ++ r) = true
  | [], r => by simp [List.isPrefixOf]
  | a :: l, r => by
    simp only [List.cons_append, List.isPrefixOf_cons₂_self]
    exact isPrefixOf_append_self l r

/-- `relative_to` inverts `moduleFile`: the generated file's path relative to the
root is the dotted-path components followed by `__init__.py`. -/
theorem relTo_moduleFile (root : List String) (t : String) :
    relTo root (moduleFile root t) = some (splitDots t ++ ["__init__.py"]) := by
  have hp : root.isPrefixOf (moduleFile root t) = true := by
    rw [moduleFile, List.append_assoc]
    exact isPrefixOf_append_self root _
  rw [relTo, if_pos hp, moduleFile, List.append_assoc, List.drop_left]

/-- C6: gitignore bookkeeping in `generate_aliases` (`plugin.py` lines 173-206).
On a successful run, the created directories are exactly those added to the
file system (fresh and non-root, each at most once); the gitignore entries are
exactly `/<relative path>` for each created directory lying under
`destination_root`; when no entry was collected the `.gitignore` under
`destination_root` is untouched, and otherwise it holds the prior content (or
the default header when the file was absent) followed by the entries in sorted
order, one per line. -/
theorem c6_gitignore_bookkeeping (tree : List Module) (src dst : List String)
    (fs fs' : FS) (entries : List String)
    (managed : List (List String × List Line))
    (h : Plugin.generate_aliases tree src dst fs = .ok (fs', entries, managed)) :
    ∃ created : List (List String),
      fs'.dirs = fs.dirs ++ created ∧ created.Nodup ∧
      (∀ d ∈ created, d ∉ fs.dirs ∧ d ≠ []) ∧
      entries = (created.filter (fun d => dst.isPrefixOf d)).map
        (fun d => "/" ++ pathStr (d.drop dst.length)) ∧
      (entries = [] → lookupFile fs'.files (dst ++ [".gitignore"])
        = lookupFile fs.files (dst ++ [".gitignore"])) ∧
      (entries ≠ [] → lookupFile fs'.files (dst ++ [".gitignore"])
        = some ((match lookupFile fs.files (dst ++ [".gitignore"]) with
            | some c => c
            | none => "# Ignore generated alias files\n")
          ++ String.join ((sortStrings entries).map (fun x => x ++ "\n")))) ∧
      (sortStrings entries).Pairwise (fun a b => strLe a b = true) := by
  cases hcm : Plugin.collect_managed src tree with
  | error e =>
    simp only [Plugin.generate_aliases, hcm] at h
    exact absurd h (by simp)
  | ok managed0 =>
    have hcm' : Plugin.collectManagedGo src (Plugin.collect_aliases tree) =
        .ok managed0 := hcm
    have hkeys : ∀ fp c, (fp, c) ∈ managed0 → ∃ r, relTo src fp = some r ∧
        r ≠ [] ∧ lastComp r = "__init__.py" := by
      intro fp c hm
      obtain ⟨t, l, ls', _, hf, _, _⟩ :=
        (plugin_collectManagedGo_mem (Plugin.collect_aliases tree) src hcm' fp c).mp hm
      refine ⟨splitDots t ++ ["__init__.py"], ?_, by simp, lastComp_concat _ _⟩
      rw [hf]
      exact relTo_moduleFile src t
    obtain ⟨created, files', heqP, hnd, hnotin, hpres⟩ :=
      processManaged_spec src dst managed0 fs [] hkeys
    rw [List.nil_append] at heqP
    have hlastG : lastComp (dst ++ [".gitignore"]) ≠ "__init__.py" := by
      rw [lastComp_concat]
      decide
    have hPW : (sortStrings ((created.filter (fun d => dst.isPrefixOf d)).map
        (fun d => "/" ++ pathStr (d.drop dst.length)))).Pairwise
        (fun a b => strLe a b = true) :=
      pairwise_isort strLe_total (fun x y z h1 h2 => strLe_trans h1 h2) _
    simp only [Plugin.generate_aliases, hcm, heqP] at h
    split at h
    · rename_i hE
      injection h with h
      rw [Prod.mk.injEq, Prod.mk.injEq] at h
      obtain ⟨h1, h2, _⟩ := h
      subst h1
      subst h2
      have hnil : (created.filter (fun d => dst.isPrefixOf d)).map
          (fun d => "/" ++ pathStr (d.drop dst.length)) = [] :=
        List.isEmpty_iff.mp hE
      refine ⟨created, rfl, hnd, hnotin, rfl, fun _ => hpres _ hlastG, ?_, hPW⟩
      intro hne
      exact absurd hnil hne
    · rename_i hE
      injection h with h
      rw [Prod.mk.injEq, Prod.mk.injEq] at h
      obtain ⟨h1, h2, _⟩ := h
      subst h1
      subst h2
      refine ⟨created, rfl, hnd, hnotin, rfl, ?_, ?_, hPW⟩
      · intro hnil
        rw [hnil] at hE
        exact absurd rfl hE
      · intro _
        show lookupFile (writeFile files' (dst ++ [".gitignore"]) _) _ = _
        rw [lookupFile_writeFile_self, hpres _ hlastG]

def c6res : FS × List String × List (List String × List Line) :=
  okD (Plugin.generate_aliases exTree [] ["out"] exFS) (⟨[], []⟩, [], [])

/-- Witness for C6: a concrete successful run on the example tree into `out`,
with the hypothesis discharged by evaluation. -/
theorem c6_witness :
    Plugin.generate_aliases exTree [] ["out"] exFS
      = .ok (c6res.1, c6res.2.1, c6res.2.2) ∧
    ∃ created : List (List String),
      c6res.1.dirs = exFS.dirs ++ created ∧ created.Nodup ∧
      (∀ d ∈ created, d ∉ exFS.dirs ∧ d ≠ []) ∧
      c6res.2.1 = (created.filter (fun d => ["out"].isPrefixOf d)).map
        (fun d => "/" ++ pathStr (d.drop (["out"] : List String).length)) ∧
      (c6res.2.1 = [] → lookupFile c6res.1.files (["out"] ++ [".gitignore"])
        = lookupFile exFS.files (["out"] ++ [".gitignore"])) ∧
      (c6res.2.1 ≠ [] → lookupFile c6res.1.files (["out"] ++ [".gitignore"])
        = some ((match lookupFile exFS.files (["out"] ++ [".gitignore"]) with
            | some c => c
            | none => "# Ignore generated alias files\n")
          ++ String.join ((sortStrings c6res.2.1).map (fun x => x ++ "\n")))) ∧
      (sortStrings c6res.2.1).Pairwise (fun a b => strLe a b = true) :=
  ⟨rfl, c6_gitignore_bookkeeping exTree [] ["out"] exFS c6res.1 c6res.2.1 c6res.2.2 rfl⟩

end HopsworksAliases
